import Mathlib

/-!
Shallow embedding of the ppef library (Partitioned Elias-Fano coding,
files src/ppef.cpp and include/ppef.h) and proofs about it.

Machine integers (`uint64_t`) are modelled as `Nat` with an explicit
`% 2 ^ 64` wherever the C++ code can wrap around; word buffers
(`std::vector<uint64_t>`, `const uint64_t*` + count) are modelled as
`List Nat` whose entries are below `2 ^ 64`.
-/

namespace Ppef

/-- Modulus of `uint64_t` arithmetic. -/
def U64 : Nat := 2 ^ 64

/-- The `UINT64_MAX` sentinel used by `next_one_at_or_after`. -/
def UINT64_MAX : Nat := 2 ^ 64 - 1

/-- Wrapping `uint64_t` subtraction `a - b` (wrapping like a two-complement machine); for
`b ≤ a < 2 ^ 64` it coincides with natural subtraction. -/
def sub64 (a b : Nat) : Nat := (a + (U64 - b % U64)) % U64

/-- Binary length (position of the highest set bit plus one), with
fuel; for `x < 2 ^ fuel` it equals `Nat.size x`. -/
def bitsLenAux : Nat → Nat → Nat
  | 0, _ => 0
  | fuel + 1, x => if x = 0 then 0 else bitsLenAux fuel (x / 2) + 1

/-- From src/ppef.cpp: `floor_log2_u64(x) = 63u - __builtin_clzll(x)`.
The count of leading zeros of a `uint64_t` is 64 minus its binary
length; undefined behaviour at `x = 0` is guarded by the only caller
(`choose_l`). -/
def floor_log2_u64 (x : Nat) : Nat := 63 - (64 - bitsLenAux 64 x)

/-- From src/ppef.cpp: `ceil_div_u64(a, b) = (a + b - 1) / b`. -/
def ceil_div_u64 (a b : Nat) : Nat := (a + b - 1) / b

/-- Fuel-indexed count of trailing zero bits; `ctzAux 64` computes
`__builtin_ctzll` on a nonzero `uint64_t`. -/
def ctzAux : Nat → Nat → Nat
  | 0, _ => 0
  | fuel + 1, x => if x % 2 = 1 then 0 else ctzAux fuel (x / 2) + 1

/-- From src/ppef.cpp: `ctz64(x)`, the bit offset of the lowest set bit
(`assert(x != 0)` in the source). -/
def ctz64 (x : Nat) : Nat := ctzAux 64 x

/-- First nonzero entry of a word list together with its index: the
word-scanning `while (w == 0) { ++wi; ... }` loop of
`next_one_at_or_after`. -/
def findNZ : List Nat → Option (Nat × Nat)
  | [] => none
  | x :: xs => if x ≠ 0 then some (0, x) else (findNZ xs).map (fun p => (p.1 + 1, p.2))

/-- From src/ppef.cpp: `next_one_at_or_after(H, nwords, pos)`.
`pos >> 6` is `pos / 64`, `pos & 63` is `pos % 64`, and
`H[wi] & (~0ULL << bo)` clears the `bo` lowest bits of the word:
`~0ULL << bo` is `2 ^ 64 - 2 ^ bo` as a `uint64_t`. The scanning loop
is `findNZ` over the first masked word followed by the remaining words
up to `nwords`. -/
def next_one_at_or_after (H : List Nat) (nwords pos : Nat) : Nat :=
  let wi := pos / 64
  let bo := pos % 64
  if nwords ≤ wi then UINT64_MAX
  else
    let w0 := (H.getD wi 0) &&& (2 ^ 64 - 2 ^ bo)
    match findNZ (w0 :: (H.take nwords).drop (wi + 1)) with
    | some (off, w) => (wi + off) * 64 + ctz64 w
    | none => UINT64_MAX

/-- Bit `p` of a bit array stored as 64-bit words, LSB-first inside each
word: bit `p % 64` of word `p / 64`. -/
def bitIn (ws : List Nat) (p : Nat) : Bool := Nat.testBit (ws.getD (p / 64) 0) (p % 64)

/-- Number of set bits of the word array `ws` among positions
`[0, m)` (the "total popcount over `[0, high_bits_len)`" of the spec). -/
def popcountRange (ws : List Nat) (m : Nat) : Nat :=
  ((Finset.range m).filter (fun p => bitIn ws p = true)).card

/-- State of `BitWriter` (include/ppef.h): finished words, current word,
bits used in the current word. -/
structure BitWriter where
  words : List Nat
  cur : Nat
  filled : Nat
  deriving DecidableEq

/-- A default-constructed `BitWriter`. -/
def BitWriter.empty : BitWriter := ⟨[], 0, 0⟩

/-- The `while (remain)` loop of `BitWriter::put`, with fuel: each real
iteration writes at least one bit, so fuel `w` suffices for a `put` of
`w` bits. `(remain < space) ? remain : space` is `min remain space`,
and `val & ((take == 64) ? ~0ULL : ((1ULL << take) - 1ULL))` keeps the
`take` lowest bits, i.e. is `val &&& (2 ^ take - 1)` in both branches. -/
def putLoop : Nat → BitWriter → Nat → Nat → BitWriter
  | 0, bw, _, _ => bw
  | fuel + 1, bw, val, remain =>
    if remain = 0 then bw
    else
      let space := 64 - bw.filled
      let take := min remain space
      let chunk := val &&& (2 ^ take - 1)
      let cur := bw.cur ||| (chunk <<< bw.filled)
      let filled := bw.filled + take
      if filled = 64 then
        putLoop fuel ⟨bw.words ++ [cur], 0, 0⟩ (val >>> take) (remain - take)
      else
        putLoop fuel ⟨bw.words, cur, filled⟩ (val >>> take) (remain - take)

/-- From src/ppef.cpp: `BitWriter::put(val, w)`. The argument has type
`uint64_t`, hence the `% U64`; `if (w < 64) val &= ((1ULL << w) - 1ULL)`. -/
def BitWriter.put (bw : BitWriter) (val w : Nat) : BitWriter :=
  if w = 0 then bw
  else
    let v := val % U64
    let v := if w < 64 then v &&& ((1 <<< w) - 1) else v
    putLoop w bw v w

/-- From src/ppef.cpp: `BitWriter::flush()`. -/
def BitWriter.flush (bw : BitWriter) : BitWriter :=
  if bw.filled ≠ 0 then ⟨bw.words ++ [bw.cur], 0, 0⟩ else bw

/-- State of `BitReader` (include/ppef.h). -/
structure BitReader where
  words : List Nat
  n_words : Nat
  idx : Nat
  consumed : Nat
  cur : Nat
  deriving DecidableEq

/-- From src/ppef.cpp: `BitReader::BitReader(words, n_words)`:
`cur(n_words ? words[0] : 0)`. -/
def BitReader.ofWords (ws : List Nat) (n : Nat) : BitReader :=
  ⟨ws, n, 0, 0, if n ≠ 0 then ws.getD 0 0 else 0⟩

/-- The `if (consumed == 64)` advance at the top of the `BitReader::get`
loop: move to the next word of the stream (reading 0 past the end). -/
def normReader (br : BitReader) : BitReader :=
  if br.consumed = 64 then
    { br with idx := br.idx + 1,
              cur := if br.idx + 1 < br.n_words then br.words.getD (br.idx + 1) 0 else 0,
              consumed := 0 }
  else br

/-- The `while (w)` loop of `BitReader::get`, with fuel: each real
iteration reads at least one bit, so fuel `w` suffices. -/
def getLoop : Nat → BitReader → Nat → Nat → Nat → Nat × BitReader
  | 0, br, res, _, _ => (res, br)
  | fuel + 1, br, res, produced, w =>
    if w = 0 then (res, br)
    else
      let br2 := normReader br
      let space := 64 - br2.consumed
      let take := min w space
      let chunk0 := br2.cur >>> br2.consumed
      let chunk := if take < 64 then chunk0 &&& ((1 <<< take) - 1) else chunk0
      getLoop fuel { br2 with consumed := br2.consumed + take }
        (res ||| (chunk <<< produced)) (produced + take) (w - take)

/-- From src/ppef.cpp: `BitReader::get(w)`; returns the read value and
the advanced reader. -/
def BitReader.get (br : BitReader) (w : Nat) : Nat × BitReader :=
  if w = 0 then (0, br) else getLoop w br 0 0 w

/-- Modelled from the spec: `BitReader::scan(bit_pos)` is called by the
tests (src/tests/test_driver.cpp, `test_bit_reader_scan`) but its
implementation is not under src/. Per spec 4.1, it "sets the cursor to
absolute bit position `bit_pos`; subsequent `get` reads begin there":
word index `bit_pos / 64`, `bit_pos % 64` bits already consumed, and
the cached current word reloaded like the constructor does. -/
def BitReader.scan (br : BitReader) (bit_pos : Nat) : BitReader :=
  { br with idx := bit_pos / 64,
            consumed := bit_pos % 64,
            cur := if bit_pos / 64 < br.n_words then br.words.getD (bit_pos / 64) 0 else 0 }

/-- Read a list of bit widths in order, collecting the values. -/
def readWidths : BitReader → List Nat → List Nat
  | _, [] => []
  | br, w :: rest =>
    let out := br.get w
    out.1 :: readWidths out.2 rest

/-- Write a list of (value, width) pairs then flush, as in the
round-trip test of the bit codec. -/
def writeAll (ps : List (Nat × Nat)) : BitWriter :=
  (ps.foldl (fun bw p => bw.put p.1 p.2) BitWriter.empty).flush

/-- Error raised by the `EFBlock` constructor (the spec names it `EmptyBlock`;
in the source a `std::runtime_error` thrown when `n_elem == 0`). -/
inductive EFError where
  | emptyBlock
  deriving DecidableEq

/-- The fields of `EFBlockMetadata` (include/ppef.h); `l` is stored as
a `uint8_t`. -/
structure EFBlockMetadata where
  n_elem : Nat
  l : Nat
  floor : Nat
  low_words : Nat
  high_words : Nat
  high_bits_len : Nat
  deriving DecidableEq

/-- An `EFBlock` (include/ppef.h): header, packed low bits, unary high
bits. -/
structure EFBlock where
  meta : EFBlockMetadata
  low : List Nat
  high : List Nat
  deriving DecidableEq

/-- From src/ppef.cpp: `EFBlock::choose_l(range, n)`. -/
def EFBlock.choose_l (range : Nat) (n : Nat) : Nat :=
  if n = 0 then 0
  else
    let q := range / n
    if q = 0 then 0 else floor_log2_u64 q

/-- The `uint64_t` difference `last - values[0]` of a block. -/
def blockSub (values : List Nat) : Nat :=
  sub64 (values.getD (values.length - 1) 0) (values.getD 0 0)

/-- The `uint64_t` value `range = (last - values[0]) + 1ULL` of a block. -/
def blockRange (values : List Nat) : Nat := (blockSub values + 1) % U64

/-- The low-bit width `l = choose_l(range, n_elem)` of a block. -/
def blockL (values : List Nat) : Nat :=
  EFBlock.choose_l (blockRange values) values.length

/-- The low-bits pass of the `EFBlock` constructor (src/ppef.cpp lines
171-187): when `l > 0`, write the `l` lowest bits of each
`values[i] - floor` through a `BitWriter` and flush; when `l == 0` the
writer is never used and the low buffer is empty. -/
def encodeLow (values : List Nat) (floor l : Nat) : List Nat :=
  if 0 < l then
    (((List.range values.length).foldl
      (fun bw i =>
        let x := sub64 (values.getD i 0) floor
        bw.put (x &&& ((1 <<< l) - 1)) l)
      BitWriter.empty)).flush.words
  else []

/-- One write `high[pos >> 6] |= (1ULL << (pos & 63ULL))` of the
constructor. An out-of-bounds index (undefined behaviour in C++)
leaves the list unchanged, as `List.set` does. -/
def setHighBit (high : List Nat) (pos : Nat) : List Nat :=
  high.set (pos / 64) ((high.getD (pos / 64) 0) ||| (1 <<< (pos % 64)))

/-- The `uint64_t` bit position the constructor sets for element `i`:
`x = values[i] - floor`, `hi = (l == 0) ? x : (x >> l)`, `pos = hi + i`. -/
def highPos (values : List Nat) (floor l i : Nat) : Nat :=
  let x := sub64 (values.getD i 0) floor
  let hi := if l = 0 then x else x >>> l
  (hi + i) % U64

/-- The high-bits pass of the `EFBlock` constructor (src/ppef.cpp lines
199-228): a zeroed buffer of `hw` words, then one set bit per element
at `uint64_t` position `hi + i`. -/
def encodeHigh (values : List Nat) (floor l hw : Nat) : List Nat :=
  (List.range values.length).foldl
    (fun high i => setHighBit high (highPos values floor l i))
    (List.replicate hw 0)

/-- The body of the `EFBlock` constructor (src/ppef.cpp lines 143-238)
for `n_elem ≥ 1`; the argument list models the `values` pointer with
`n_elem = values.length`. `range = (last - values[0]) + 1ULL` and
`pos = hi + i` are `uint64_t` computations, hence the explicit wrap. -/
def buildEFBlock (values : List Nat) : EFBlock :=
  let n_elem := values.length
  let floor := values.getD 0 0
  let range := blockRange values
  let l := blockL values
  let low := encodeLow values floor l
  let range_hi := if l = 0 then range else ((range + ((1 <<< l) - 1)) % U64) >>> l
  let bits_hi := (n_elem + range_hi) % U64
  let hw := ceil_div_u64 bits_hi 64
  let high := encodeHigh values floor l hw
  { meta := { n_elem := n_elem, l := l % 256, floor := floor,
              low_words := low.length, high_words := high.length,
              high_bits_len := bits_hi },
    low := low, high := high }

/-- From src/ppef.cpp: the `EFBlock` constructor; throws (here: returns
`EFError.emptyBlock`) when `n_elem == 0`, otherwise builds the block. -/
def EFBlock.ofValues (values : List Nat) : Except EFError EFBlock :=
  if values.length = 0 then .error .emptyBlock else .ok (buildEFBlock values)

/-- One iteration of the `EFBlock::decode` loop (src/ppef.cpp lines
250-263). The state is (`prev_hi_pos`, bit reader over `low`, output so
far); `hi << meta.l`, `pos - i` and the final addition are `uint64_t`
operations. -/
def decodeStep (b : EFBlock) (st : Nat × BitReader × List Nat) (i : Nat) :
    Nat × BitReader × List Nat :=
  let start := if st.1 = UINT64_MAX then 0 else st.1 + 1
  let pos := next_one_at_or_after b.high b.meta.high_words start
  let hi := sub64 pos i
  let read := if b.meta.l ≠ 0 then st.2.1.get b.meta.l else (0, st.2.1)
  (pos, read.2, st.2.2 ++ [(b.meta.floor + (((hi <<< b.meta.l) % U64) ||| read.1)) % U64])

/-- From src/ppef.cpp: `EFBlock::decode()`. -/
def EFBlock.decode (b : EFBlock) : List Nat :=
  let br0 := BitReader.ofWords b.low b.low.length
  ((List.range b.meta.n_elem).foldl (decodeStep b) (UINT64_MAX, br0, [])).2.2

/-- Modelled from the spec: the `Sequence`/`PEF` metadata header. Its
construction and serialization are not under src/ (only the declaration
`PEFMetadata` in include/ppef.h); the field list, widths and order are
those of the declaration, the magic is the one documented there
(`char magic[4]; // file magic ("PPEF")`) and `version` is 1
(`uint32_t version; // 1`). -/
structure PEFMetadata where
  magic : List Nat
  version : Nat
  n_elem : Nat
  block_size : Nat
  reserved : Nat
  n_blocks : Nat
  payload_offset : Nat
  deriving DecidableEq

/-- Little-endian bytes of width `k` of the value `v`. -/
def leBytes (k v : Nat) : List Nat := (List.range k).map (fun i => (v >>> (8 * i)) % 256)

/-- Modelled from the spec: byte-exact serialization of the packed
40-byte `PEFMetadata` header (spec section 6; `#pragma pack(push, 1)`
layout of include/ppef.h, little-endian). -/
def PEFMetadata.serialize (m : PEFMetadata) : List Nat :=
  m.magic ++ leBytes 4 m.version ++ leBytes 8 m.n_elem ++ leBytes 4 m.block_size
    ++ leBytes 4 m.reserved ++ leBytes 8 m.n_blocks ++ leBytes 8 m.payload_offset

/-- Modelled from the spec: the header the `Sequence` constructor
populates. The magic bytes spell "PPEF" (0x50 0x50 0x45 0x46), per the
declarations in include/ppef.h; `version` is 1, `reserved` 0. -/
def mkPEFMetadata (n_elem block_size n_blocks payload_offset : Nat) : PEFMetadata :=
  { magic := [0x50, 0x50, 0x45, 0x46], version := 1, n_elem := n_elem,
    block_size := block_size, reserved := 0, n_blocks := n_blocks,
    payload_offset := payload_offset }

/-- Fuel-indexed splitting of a list into chunks of `B` elements. -/
def chunksAux (B : Nat) : Nat → List Nat → List (List Nat)
  | 0, _ => []
  | _, [] => []
  | fuel + 1, l => l.take B :: chunksAux B fuel (l.drop B)

/-- Modelled from the spec (section 4.4): the partitioner splits
`values` into runs of at most `block_size` elements, in order. -/
def seqChunks (values : List Nat) (B : Nat) : List (List Nat) :=
  chunksAux B values.length values

/-- Modelled from the spec (sections 4.4 and the round-trip property):
`Sequence(values, B).decode()` concatenates the decodes of the
per-block Elias-Fano encodings of the runs. -/
def seqDecode (values : List Nat) (B : Nat) : List Nat :=
  ((seqChunks values B).map (fun c => (buildEFBlock c).decode)).flatten

/-- Value of a word list read as one long little-endian bit string:
word `i` contributes its 64 bits at positions `[64 i, 64 i + 64)`. -/
def wordsVal (ws : List Nat) : Nat := ws.foldr (fun w acc => w + acc * U64) 0

/-- Number of bits a writer holds (full words plus the partial word). -/
def BitWriter.bitLen (bw : BitWriter) : Nat := 64 * bw.words.length + bw.filled

/-- Value of all bits a writer holds, the partial word at the top. -/
def BitWriter.val (bw : BitWriter) : Nat :=
  wordsVal bw.words + bw.cur * 2 ^ (64 * bw.words.length)

/-- Well-formedness of a writer: words are `uint64_t`s, the partial
word has fewer than 64 bits and is zero above `filled`. -/
def BitWriter.Wf (bw : BitWriter) : Prop :=
  (∀ w ∈ bw.words, w < U64) ∧ bw.filled < 64 ∧ bw.cur < 2 ^ bw.filled

/-- Absolute bit position of the cursor of a reader. -/
def BitReader.pos (br : BitReader) : Nat := 64 * br.idx + br.consumed

/-- The bit stream a reader reads: the first `n_words` words as one
little-endian value (reads beyond it yield zero bits). -/
def BitReader.stream (br : BitReader) : Nat := wordsVal (br.words.take br.n_words)

/-- Well-formedness of a reader: `consumed ∈ [0, 64]`, words are
`uint64_t`s, and the cached word is the one at `idx` (zero past the
end), as established by the constructor. -/
def BitReader.Wf (br : BitReader) : Prop :=
  br.consumed ≤ 64 ∧ (∀ w ∈ br.words, w < U64) ∧
    br.cur = (if br.idx < br.n_words then br.words.getD br.idx 0 else 0)

/-- Value of a list of (digit, width) pairs packed LSB-first. -/
def sval : List (Nat × Nat) → Nat
  | [] => 0
  | (d, w) :: rest => d + sval rest * 2 ^ w

/-- Bit position of element `i` of a block in the unary high-bits
buffer: `((values[i] - floor) >> l) + i` (claim C4; for `l = 0` the
code uses `x` directly, and `x >>> 0 = x`). -/
def hiPos (values : List Nat) (l i : Nat) : Nat :=
  (sub64 (values.getD i 0) (values.getD 0 0)) >>> l + i

/-- Definition following the words of the spec for `choose_l` (section 4.2, step 2):
`choose_l(R, n) = 0` if `n == 0` or `R/n == 0`, else `floor(log2(R/n))`. -/
def specChooseL (R n : Nat) : Nat :=
  if n = 0 ∨ R / n = 0 then 0 else Nat.log2 (R / n)

/-- The no-overflow side condition on one block: with
`range = last - first + 1` and `l` as chosen by the code, the high-bit
sizing `range + 2 ^ l - 1` stays below `2 ^ 64`. It holds in particular
whenever `last - first < 2 ^ 63`. -/
def noHighOverflow (values : List Nat) : Bool :=
  decide (blockSub values + 2 ^ blockL values < U64)

/-- State (`prev_hi_pos`, bit reader, output) of the `EFBlock::decode`
loop over the block built from `values`, after the first `k` of the
`n_elem` iterations. -/
def decState (values : List Nat) (k : Nat) : Nat × BitReader × List Nat :=
  (List.range k).foldl (decodeStep (buildEFBlock values))
    (UINT64_MAX,
      BitReader.ofWords (buildEFBlock values).low (buildEFBlock values).low.length, [])

/-! Basic bit-arithmetic helper lemmas. -/

theorem lor_shl_add : ∀ (k a b : Nat), a < 2 ^ k → a ||| (b <<< k) = a + b * 2 ^ k := by
  intro k
  induction k with
  | zero =>
    intro a b h
    interval_cases a
    simp [Nat.shiftLeft_eq]
  | succ k ih =>
    intro a b h
    have hd : Nat.bit a.bodd a.div2 = a := Nat.bit_decomp a
    have hb : b <<< (k + 1) = Nat.bit false (b <<< k) := by
      simp [Nat.shiftLeft_eq, Nat.bit, pow_succ]
      ring
    have ha2 : a.div2 < 2 ^ k := by
      have h2 : a.div2 = a / 2 := Nat.div2_val a
      have h3 : a / 2 < 2 ^ k := by
        apply Nat.div_lt_of_lt_mul
        rw [pow_succ] at h
        omega
      omega
    rw [← hd, hb, Nat.lor_bit, ih _ _ ha2]
    simp [Nat.bit_val, Nat.shiftLeft_eq, pow_succ]
    ring

theorem mod_pow_split (x t r : Nat) :
    x % 2 ^ (t + r) = x % 2 ^ t + (x / 2 ^ t % 2 ^ r) * 2 ^ t := by
  have hdvd : (2 : Nat) ^ t ∣ 2 ^ t * 2 ^ r := Dvd.intro _ rfl
  have h1 : x % 2 ^ t = x % (2 ^ t * 2 ^ r) % 2 ^ t := (Nat.mod_mod_of_dvd x hdvd).symm
  have h2 : x % (2 ^ t * 2 ^ r) / 2 ^ t = x / 2 ^ t % 2 ^ r := Nat.mod_mul_right_div_self x _ _
  have h3 : 2 ^ t * (x % (2 ^ t * 2 ^ r) / 2 ^ t) + x % (2 ^ t * 2 ^ r) % 2 ^ t
      = x % (2 ^ t * 2 ^ r) := Nat.div_add_mod _ _
  rw [pow_add, ← h3, h2, ← h1]
  ring

theorem shiftRight_lt (x t k : Nat) (h : x < 2 ^ (t + k)) : x >>> t < 2 ^ k := by
  rw [Nat.shiftRight_eq_div_pow]
  apply Nat.div_lt_of_lt_mul
  rw [← pow_add]
  omega

/-! Lemmas about `floor_log2_u64` and `choose_l`. -/

theorem bitsLenAux_eq_size : ∀ (fuel x : Nat), x < 2 ^ fuel → bitsLenAux fuel x = Nat.size x := by
  intro fuel
  induction fuel with
  | zero =>
    intro x h
    have hx : x = 0 := by omega
    subst hx
    exact Nat.size_zero.symm
  | succ fuel ih =>
    intro x h
    unfold bitsLenAux
    by_cases hx : x = 0
    · rw [if_pos hx, hx]
      exact Nat.size_zero.symm
    · rw [if_neg hx]
      have hdiv : x / 2 < 2 ^ fuel := by
        rw [pow_succ] at h
        omega
      rw [ih (x / 2) hdiv]
      have hbit : Nat.bit x.bodd x.div2 = x := Nat.bit_decomp x
      conv_rhs => rw [← hbit]
      rw [Nat.size_bit (by rw [hbit]; exact hx), Nat.div2_val]

theorem floor_log2_eq_log2 (x : Nat) (h1 : 1 ≤ x) (h2 : x < U64) :
    floor_log2_u64 x = Nat.log2 x := by
  have hx : x ≠ 0 := by omega
  have hs1 : 0 < Nat.size x := Nat.lt_size.mpr (by simpa using h1)
  have hs2 : Nat.size x ≤ 64 := Nat.size_le.mpr h2
  have hs3 : Nat.size x ≤ Nat.log2 x + 1 := Nat.size_le.mpr (Nat.lt_log2_self)
  have hs4 : Nat.log2 x < Nat.size x := Nat.lt_size.mpr (Nat.log2_self_le hx)
  unfold floor_log2_u64
  rw [bitsLenAux_eq_size 64 x h2]
  omega

theorem choose_l_le_63 (range n : Nat) (h : range < U64) : EFBlock.choose_l range n ≤ 63 := by
  unfold EFBlock.choose_l
  by_cases hn : n = 0
  · simp [hn]
  · by_cases hq : range / n = 0
    · simp [hn, hq]
    · have hle : range / n ≤ range := Nat.div_le_self _ _
      have hlt : range / n < U64 := by omega
      simp only [hn, hq, if_false]
      rw [floor_log2_eq_log2 (range / n) (Nat.pos_of_ne_zero hq) hlt]
      have hl : Nat.log2 (range / n) < 64 := (Nat.log2_lt hq).mpr (by
        have he : U64 = 2 ^ 64 := rfl
        omega)
      omega

/-- Claim C5: `choose_l(range, n)` is 0 when `n == 0` or `range/n == 0`
and `floor(log2(range/n))` otherwise; equivalently, for `n ≥ 1` it is
`floor(log2(max(1, range/n)))`. -/
theorem claim5_choose_l_spec (range n : Nat) (h : range < U64) :
    EFBlock.choose_l range n = specChooseL range n ∧
      (1 ≤ n → EFBlock.choose_l range n = Nat.log2 (max 1 (range / n))) := by
  have hle : range / n ≤ range := Nat.div_le_self _ _
  have hlt : range / n < U64 := by omega
  constructor
  · unfold EFBlock.choose_l specChooseL
    by_cases hn : n = 0
    · simp [hn]
    · by_cases hq : range / n = 0
      · simp [hn, hq]
      · simp only [hn, hq, if_false, or_false, if_neg hq]
        exact floor_log2_eq_log2 (range / n) (Nat.pos_of_ne_zero hq) hlt
  · intro hn
    unfold EFBlock.choose_l
    rw [if_neg (by omega)]
    by_cases hq : range / n = 0
    · simp only [hq]
      norm_num [Nat.log2]
    · simp only [hq, if_false]
      rw [Nat.max_eq_right (Nat.pos_of_ne_zero hq)]
      exact floor_log2_eq_log2 (range / n) (Nat.pos_of_ne_zero hq) hlt

/-- Witness for claim C5 at `range = 12`, `n = 3`. -/
theorem claim5_choose_l_spec_witness :
    EFBlock.choose_l 12 3 = specChooseL 12 3 ∧
      (1 ≤ 3 → EFBlock.choose_l 12 3 = Nat.log2 (max 1 (12 / 3))) :=
  claim5_choose_l_spec 12 3 (by decide)

/-- Claim C10: for `range < 2 ^ 64` the chosen low-bit width never
exceeds 63, so the `uint8_t` store `meta.l = (uint8_t)l` is lossless
(and every shift by `l` in encode and decode is by fewer than 64 bits,
and `floor_log2_u64` is only reached with a nonzero argument, its
callers having returned 0 otherwise). -/
theorem claim10_choose_l_bound (range n : Nat) (h : range < U64) :
    EFBlock.choose_l range n ≤ 63 ∧
      EFBlock.choose_l range n % 256 = EFBlock.choose_l range n := by
  have hb := choose_l_le_63 range n h
  exact ⟨hb, Nat.mod_eq_of_lt (by omega)⟩

/-- Witness for claim C10 at `range = 2 ^ 64 - 1`, `n = 1`. -/
theorem claim10_choose_l_bound_witness :
    EFBlock.choose_l (2 ^ 64 - 1) 1 ≤ 63 ∧
      EFBlock.choose_l (2 ^ 64 - 1) 1 % 256 = EFBlock.choose_l (2 ^ 64 - 1) 1 :=
  claim10_choose_l_bound (2 ^ 64 - 1) 1 (by decide)

/-- Claim C7: constructing an `EFBlock` from zero elements fails with
`EmptyBlock` and yields no block, while construction from `n ≥ 1`
non-decreasing values never raises this error. -/
theorem claim7_empty_block (values : List Nat) :
    (values.length = 0 → EFBlock.ofValues values = .error .emptyBlock) ∧
      (1 ≤ values.length → List.Sorted (· ≤ ·) values →
        ∃ b, EFBlock.ofValues values = .ok b) := by
  constructor
  · intro h
    unfold EFBlock.ofValues
    rw [if_pos h]
  · intro h _
    refine ⟨buildEFBlock values, ?_⟩
    unfold EFBlock.ofValues
    rw [if_neg (by omega)]

/-- Witness for claim C7 at `values = []` and `values = [5]`. -/
theorem claim7_empty_block_witness :
    EFBlock.ofValues [] = .error .emptyBlock ∧
      ∃ b, EFBlock.ofValues [5] = .ok b :=
  ⟨(claim7_empty_block []).1 rfl,
    (claim7_empty_block [5]).2 (by decide) (by simp)⟩

/-! Lemmas on list indexing used throughout. -/

theorem drop_getD (l : List Nat) (n i d : Nat) : (l.drop n).getD i d = l.getD (n + i) d := by
  simp [List.getD_eq_getElem?_getD, List.getElem?_drop]

theorem getD_lt_of_forall_lt (l : List Nat) (i : Nat) (hi : i < l.length)
    (hw : ∀ x ∈ l, x < U64) : l.getD i 0 < U64 := by
  rw [List.getD_eq_getElem l 0 hi]
  exact hw _ (List.getElem_mem hi)

/-! Correctness of the trailing-zero count and of the word scan. -/

theorem ctzAux_spec : ∀ (fuel x : Nat), 0 < x → x < 2 ^ fuel →
    x.testBit (ctzAux fuel x) = true ∧ ∀ j < ctzAux fuel x, x.testBit j = false := by
  intro fuel
  induction fuel with
  | zero => intro x h1 h2; omega
  | succ fuel ih =>
    intro x h1 h2
    unfold ctzAux
    by_cases hodd : x % 2 = 1
    · rw [if_pos hodd]
      refine ⟨?_, by omega⟩
      rw [Nat.testBit_zero]
      simp [hodd]
    · have hx2 : 0 < x / 2 := by omega
      have hx2b : x / 2 < 2 ^ fuel := by
        rw [pow_succ] at h2
        omega
      obtain ⟨ha, hb⟩ := ih (x / 2) hx2 hx2b
      rw [if_neg hodd]
      constructor
      · rw [Nat.testBit_succ]
        exact ha
      · intro j hj
        match j with
        | 0 =>
          rw [Nat.testBit_zero]
          simp [hodd]
        | j + 1 =>
          rw [Nat.testBit_succ]
          exact hb j (by omega)

theorem ctz64_spec (x : Nat) (h1 : 0 < x) (h2 : x < U64) :
    x.testBit (ctz64 x) = true ∧ ∀ j < ctz64 x, x.testBit j = false :=
  ctzAux_spec 64 x h1 h2

theorem ctz64_lt_64 (x : Nat) (h1 : 0 < x) (h2 : x < U64) : ctz64 x < 64 := by
  have h := (ctz64_spec x h1 h2).1
  have hge : 2 ^ ctz64 x ≤ x := Nat.testBit_implies_ge h
  by_contra hc
  have : (2 : Nat) ^ 64 ≤ 2 ^ ctz64 x := Nat.pow_le_pow_right (by omega) (by omega)
  have hu : U64 = 2 ^ 64 := rfl
  omega

theorem findNZ_none (l : List Nat) : findNZ l = none → ∀ x ∈ l, x = 0 := by
  induction l with
  | nil => intro _ x hx; cases hx
  | cons a as ih =>
    intro h x hx
    unfold findNZ at h
    by_cases ha : a = 0
    · rw [if_neg (not_not_intro ha)] at h
      rw [List.mem_cons] at hx
      rcases hx with hx | hx
      · rw [hx]; exact ha
      · rcases hfn : findNZ as with _ | p
        · exact ih hfn x hx
        · rw [hfn] at h
          exact Option.noConfusion h
    · rw [if_pos ha] at h
      exact Option.noConfusion h

theorem findNZ_some (l : List Nat) : ∀ (off w : Nat), findNZ l = some (off, w) →
    off < l.length ∧ l.getD off 0 = w ∧ w ≠ 0 ∧ ∀ j < off, l.getD j 0 = 0 := by
  induction l with
  | nil => intro off w h; simp [findNZ] at h
  | cons a as ih =>
    intro off w h
    unfold findNZ at h
    by_cases ha : a = 0
    · rw [if_neg (not_not_intro ha)] at h
      rcases hfn : findNZ as with _ | p
      · rw [hfn] at h
        exact Option.noConfusion h
      · rw [hfn] at h
        rw [Option.map_some'] at h
        simp only [Option.some.injEq, Prod.mk.injEq] at h
        obtain ⟨h1, h2⟩ := h
        obtain ⟨hlen, hget, hne, hzero⟩ := ih p.1 p.2 (by rw [hfn])
        refine ⟨?_, ?_, ?_, ?_⟩
        · simp only [List.length_cons]
          omega
        · rw [← h1, ← h2, List.getD_cons_succ]
          exact hget
        · rw [← h2]
          exact hne
        · intro j hj
          match j with
          | 0 =>
            rw [List.getD_cons_zero]
            exact ha
          | j + 1 =>
            rw [List.getD_cons_succ]
            exact hzero j (by omega)
    · rw [if_pos ha] at h
      simp only [Option.some.injEq, Prod.mk.injEq] at h
      obtain ⟨h1, h2⟩ := h
      refine ⟨by simp only [List.length_cons]; omega, ?_, ?_, ?_⟩
      · rw [← h1, ← h2, List.getD_cons_zero]
      · rw [← h2]
        exact ha
      · intro j hj
        omega

theorem mask_testBit (bo j : Nat) (h : bo < 64) :
    (2 ^ 64 - 2 ^ bo).testBit j = (decide (bo ≤ j) && decide (j < 64)) := by
  have he : (2 : Nat) ^ 64 - 2 ^ bo = (2 ^ (64 - bo) - 1) <<< bo := by
    rw [Nat.shiftLeft_eq, Nat.sub_mul, ← pow_add]
    have : 64 - bo + bo = 64 := by omega
    rw [this]
    simp
  rw [he, Nat.testBit_shiftLeft, Nat.testBit_two_pow_sub_one]
  by_cases hle : bo ≤ j
  · rw [decide_eq_true (ge_iff_le.mpr hle), Bool.true_and, Bool.true_and]
    congr 1
    simp only [eq_iff_iff]
    omega
  · rw [decide_eq_false (by omega : ¬j ≥ bo), Bool.false_and, Bool.false_and]

theorem getD_zero_of_forall (l : List Nat) (i : Nat) (h : ∀ x ∈ l, x = 0) :
    l.getD i 0 = 0 := by
  by_cases hi : i < l.length
  · rw [List.getD_eq_getElem l 0 hi]
    exact h _ (List.getElem_mem hi)
  · exact List.getD_eq_default l 0 (by omega)

theorem next_one_found (H : List Nat) (pos off w : Nat) (hw : ∀ x ∈ H, x < U64)
    (hwi : pos / 64 < H.length)
    (hfind : findNZ ((H.getD (pos / 64) 0 &&& (2 ^ 64 - 2 ^ (pos % 64))) :: H.drop (pos / 64 + 1))
      = some (off, w)) :
    pos ≤ (pos / 64 + off) * 64 + ctz64 w ∧
      (pos / 64 + off) * 64 + ctz64 w < 64 * H.length ∧
      bitIn H ((pos / 64 + off) * 64 + ctz64 w) = true ∧
      ∀ p, pos ≤ p → p < (pos / 64 + off) * 64 + ctz64 w → bitIn H p = false := by
  have hbo : pos % 64 < 64 := Nat.mod_lt _ (by omega)
  have hposd : 64 * (pos / 64) + pos % 64 = pos := Nat.div_add_mod pos 64
  obtain ⟨hlen, hget, hne, hzero⟩ := findNZ_some _ off w hfind
  rw [List.length_cons, List.length_drop] at hlen
  have hw0bit : ∀ j, ((H.getD (pos / 64) 0) &&& (2 ^ 64 - 2 ^ (pos % 64))).testBit j
      = ((H.getD (pos / 64) 0).testBit j && (decide (pos % 64 ≤ j) && decide (j < 64))) := by
    intro j
    rw [Nat.testBit_and, mask_testBit _ _ hbo]
  have hoff : off < H.length - pos / 64 := by omega
  have hwlt : w < U64 := by
    rcases off with _ | k
    · rw [List.getD_cons_zero] at hget
      have hle : w ≤ H.getD (pos / 64) 0 := hget ▸ Nat.and_le_left
      have := getD_lt_of_forall_lt H (pos / 64) hwi hw
      omega
    · rw [List.getD_cons_succ, drop_getD] at hget
      have hk : pos / 64 + 1 + k < H.length := by omega
      have := getD_lt_of_forall_lt H (pos / 64 + 1 + k) hk hw
      omega
  have hcp : 0 < w := Nat.pos_of_ne_zero hne
  obtain ⟨hcbit, hclow⟩ := ctz64_spec w hcp hwlt
  have hc64 : ctz64 w < 64 := ctz64_lt_64 w hcp hwlt
  rcases off with _ | k
  · -- the masked first word is nonzero: the answer is inside word pos / 64
    rw [List.getD_cons_zero] at hget
    have h0 := hw0bit (ctz64 w)
    rw [hget, hcbit] at h0
    have h0s := h0.symm
    simp only [Bool.and_eq_true, decide_eq_true_eq] at h0s
    obtain ⟨hb1, hb2, _⟩ := h0s
    refine ⟨by omega, by omega, ?_, ?_⟩
    · unfold bitIn
      have hd : ((pos / 64 + 0) * 64 + ctz64 w) / 64 = pos / 64 := by omega
      have hm : ((pos / 64 + 0) * 64 + ctz64 w) % 64 = ctz64 w := by omega
      rw [hd, hm]
      exact hb1
    · intro p hp1 hp2
      unfold bitIn
      have hq : p / 64 = pos / 64 := by omega
      have hr1 : pos % 64 ≤ p % 64 := by omega
      have hr2 : p % 64 < ctz64 w := by omega
      have hz := hclow (p % 64) hr2
      rw [← hget, hw0bit] at hz
      rw [decide_eq_true hr1, decide_eq_true (by omega : p % 64 < 64)] at hz
      simp only [Bool.and_true] at hz
      rw [hq]
      exact hz
  · -- the answer is inside word pos / 64 + 1 + k; all earlier candidates
    -- (the masked first word and the words between) are zero
    rw [List.getD_cons_succ, drop_getD] at hget
    have hk : pos / 64 + 1 + k < H.length := by omega
    have hw0z : H.getD (pos / 64) 0 &&& (2 ^ 64 - 2 ^ (pos % 64)) = 0 := by
      have h00 := hzero 0 (by omega)
      rwa [List.getD_cons_zero] at h00
    have hmidz : ∀ q, pos / 64 < q → q < pos / 64 + 1 + k → H.getD q 0 = 0 := by
      intro q hq1 hq2
      have hj := hzero (q - pos / 64) (by omega)
      have hqe : q - pos / 64 = q - pos / 64 - 1 + 1 := by omega
      rw [hqe, List.getD_cons_succ, drop_getD] at hj
      have he : pos / 64 + 1 + (q - pos / 64 - 1) = q := by omega
      rwa [he] at hj
    refine ⟨by omega, by omega, ?_, ?_⟩
    · unfold bitIn
      have hd : ((pos / 64 + (k + 1)) * 64 + ctz64 w) / 64 = pos / 64 + 1 + k := by omega
      have hm : ((pos / 64 + (k + 1)) * 64 + ctz64 w) % 64 = ctz64 w := by omega
      rw [hd, hm, hget]
      exact hcbit
    · intro p hp1 hp2
      unfold bitIn
      have hql : pos / 64 ≤ p / 64 := by omega
      have hqh : p / 64 ≤ pos / 64 + 1 + k := by omega
      rcases Nat.lt_or_ge (p / 64) (pos / 64 + 1) with hq | hq
      · -- same word as pos: the masked word is zero there
        have hq0 : p / 64 = pos / 64 := by omega
        have hr1 : pos % 64 ≤ p % 64 := by omega
        have hz := hw0bit (p % 64)
        rw [hw0z, Nat.zero_testBit] at hz
        rw [decide_eq_true hr1, decide_eq_true (by omega : p % 64 < 64)] at hz
        simp only [Bool.and_true] at hz
        rw [hq0]
        exact hz.symm
      · rcases Nat.lt_or_ge (p / 64) (pos / 64 + 1 + k) with hq2 | hq2
        · -- a middle word, entirely zero
          rw [hmidz (p / 64) (by omega) (by omega), Nat.zero_testBit]
        · -- the stopping word, below its lowest set bit
          have hq3 : p / 64 = pos / 64 + 1 + k := by omega
          have hr : p % 64 < ctz64 w := by omega
          rw [hq3, hget]
          exact hclow _ hr

/-- Claim C3 as a reusable lemma: `next_one_at_or_after H |H| pos`
either returns the sentinel and no bit of `H` at a position in
`[pos, 64 |H|)` is set, or it returns the least set-bit position
`≥ pos`, which lies in `[0, 64 |H|)`. -/
theorem next_one_spec (H : List Nat) (pos : Nat) (hw : ∀ x ∈ H, x < U64) :
    (next_one_at_or_after H H.length pos = UINT64_MAX ∧
      ∀ p, pos ≤ p → p < 64 * H.length → bitIn H p = false) ∨
    (pos ≤ next_one_at_or_after H H.length pos ∧
      next_one_at_or_after H H.length pos < 64 * H.length ∧
      bitIn H (next_one_at_or_after H H.length pos) = true ∧
      ∀ p, pos ≤ p → p < next_one_at_or_after H H.length pos → bitIn H p = false) := by
  simp only [next_one_at_or_after, List.take_length]
  by_cases hcase : H.length ≤ pos / 64
  · rw [if_pos hcase]
    left
    refine ⟨rfl, ?_⟩
    intro p hp1 hp2
    have h1 : p / 64 < H.length :=
      Nat.div_lt_iff_lt_mul (by omega : (0 : Nat) < 64) |>.mpr (by omega : p < H.length * 64)
    have h2 : pos / 64 ≤ p / 64 := Nat.div_le_div_right hp1
    omega
  · rw [if_neg hcase]
    have hwi : pos / 64 < H.length := by omega
    rcases hfind : findNZ ((H.getD (pos / 64) 0 &&& (2 ^ 64 - 2 ^ (pos % 64))) :: H.drop (pos / 64 + 1))
      with _ | p
    · left
      refine ⟨rfl, ?_⟩
      have hall := findNZ_none _ hfind
      have hw0 : H.getD (pos / 64) 0 &&& (2 ^ 64 - 2 ^ (pos % 64)) = 0 :=
        hall _ (by simp)
      intro p hp1 hp2
      have hq1 : pos / 64 ≤ p / 64 := Nat.div_le_div_right hp1
      have hq2 : p / 64 < H.length :=
        Nat.div_lt_iff_lt_mul (by omega : (0 : Nat) < 64) |>.mpr (by omega)
      unfold bitIn
      by_cases hq : p / 64 = pos / 64
      · rw [hq]
        have hposd : 64 * (pos / 64) + pos % 64 = pos := Nat.div_add_mod pos 64
        have hr : pos % 64 ≤ p % 64 := by omega
        have hthis : ((H.getD (pos / 64) 0) &&& (2 ^ 64 - 2 ^ (pos % 64))).testBit (p % 64)
            = ((H.getD (pos / 64) 0).testBit (p % 64)
                && (decide (pos % 64 ≤ p % 64) && decide (p % 64 < 64))) := by
          rw [Nat.testBit_and, mask_testBit _ _ (by omega)]
        rw [hw0, Nat.zero_testBit] at hthis
        rw [decide_eq_true hr, decide_eq_true (by omega : p % 64 < 64)] at hthis
        simp only [Bool.and_true] at hthis
        exact hthis.symm
      · have hz : H.getD (p / 64) 0 = 0 := by
          have hd := getD_zero_of_forall (H.drop (pos / 64 + 1)) (p / 64 - (pos / 64 + 1))
            (fun x hx => hall x (by right; exact hx))
          rw [drop_getD] at hd
          have he : pos / 64 + 1 + (p / 64 - (pos / 64 + 1)) = p / 64 := by omega
          rwa [he] at hd
        rw [hz, Nat.zero_testBit]
    · right
      obtain ⟨off, w⟩ := p
      exact next_one_found H pos off w hw hwi hfind



/-- Claim C3: `next_one_at_or_after(H, n_words, pos)` returns the least
set-bit position `p ≥ pos` inside `[0, n_words * 64)`, and the sentinel
`UINT64_MAX` when no set bit at or after `pos` exists. -/
theorem claim3_next_one_at_or_after (H : List Nat) (nwords pos : Nat)
    (hn : nwords = H.length) (hw : ∀ x ∈ H, x < U64) :
    (next_one_at_or_after H nwords pos = UINT64_MAX ∧
      ∀ p, pos ≤ p → p < 64 * nwords → bitIn H p = false) ∨
    (pos ≤ next_one_at_or_after H nwords pos ∧
      next_one_at_or_after H nwords pos < 64 * nwords ∧
      bitIn H (next_one_at_or_after H nwords pos) = true ∧
      ∀ p, pos ≤ p → p < next_one_at_or_after H nwords pos → bitIn H p = false) := by
  subst hn
  exact next_one_spec H pos hw

/-- Witness for claim C3: in `[8, 0, 1]` (bits 3 and 128 set), the
scan from position 4 finds bit 128, and from position 129 the sentinel. -/
theorem claim3_next_one_at_or_after_witness :
    ((next_one_at_or_after [8, 0, 1] 3 4 = UINT64_MAX ∧
      ∀ p, 4 ≤ p → p < 64 * 3 → bitIn [8, 0, 1] p = false) ∨
    (4 ≤ next_one_at_or_after [8, 0, 1] 3 4 ∧
      next_one_at_or_after [8, 0, 1] 3 4 < 64 * 3 ∧
      bitIn [8, 0, 1] (next_one_at_or_after [8, 0, 1] 3 4) = true ∧
      ∀ p, 4 ≤ p → p < next_one_at_or_after [8, 0, 1] 3 4 → bitIn [8, 0, 1] p = false)) :=
  claim3_next_one_at_or_after [8, 0, 1] 3 4 (by decide) (by decide)

/-! Value semantics of the packed word lists and of the bit codec. -/

theorem wordsVal_nil : wordsVal [] = 0 := rfl

theorem wordsVal_cons (a : Nat) (l : List Nat) : wordsVal (a :: l) = a + wordsVal l * U64 := rfl

theorem wordsVal_append_one (ws : List Nat) (c : Nat) :
    wordsVal (ws ++ [c]) = wordsVal ws + c * 2 ^ (64 * ws.length) := by
  induction ws with
  | nil => simp [wordsVal_cons, wordsVal_nil]
  | cons a ws ih =>
    rw [List.cons_append, wordsVal_cons, ih, wordsVal_cons, List.length_cons]
    have he : 64 * (ws.length + 1) = 64 * ws.length + 64 := by ring
    rw [he, pow_add]
    have hU : U64 = 2 ^ 64 := rfl
    rw [hU]
    ring

theorem wordsVal_lt (ws : List Nat) (h : ∀ w ∈ ws, w < U64) :
    wordsVal ws < 2 ^ (64 * ws.length) := by
  induction ws with
  | nil => simp [wordsVal_nil]
  | cons a ws ih =>
    rw [wordsVal_cons, List.length_cons]
    have ha : a < U64 := h a (by simp)
    have hih : wordsVal ws < 2 ^ (64 * ws.length) := ih (fun w hw => h w (by simp [hw]))
    have he : 64 * (ws.length + 1) = 64 * ws.length + 64 := by ring
    rw [he, pow_add]
    have hU : U64 = 2 ^ 64 := rfl
    calc a + wordsVal ws * U64 < U64 + wordsVal ws * U64 := by omega
    _ = (1 + wordsVal ws) * U64 := by ring
    _ ≤ 2 ^ (64 * ws.length) * U64 := Nat.mul_le_mul_right _ (by omega)
    _ = 2 ^ (64 * ws.length) * 2 ^ 64 := by rw [hU]

theorem stream_getD (ws : List Nat) (h : ∀ w ∈ ws, w < U64) :
    ∀ (n i : Nat), i < n → wordsVal (ws.take n) / 2 ^ (64 * i) % U64 = ws.getD i 0 := by
  induction ws with
  | nil =>
    intro n i _
    simp [wordsVal_nil]
  | cons a ws ih =>
    intro n i hi
    match n, hi with
    | n + 1, hi =>
      rw [List.take_succ_cons, wordsVal_cons]
      match i with
      | 0 =>
        rw [Nat.mul_zero, pow_zero, Nat.div_one, Nat.add_mul_mod_self_right,
          List.getD_cons_zero]
        exact Nat.mod_eq_of_lt (h a (by simp))
      | i + 1 =>
        have he : 64 * (i + 1) = 64 + 64 * i := by ring
        rw [he, pow_add, ← Nat.div_div_eq_div_mul]
        have hU : U64 = 2 ^ 64 := rfl
        have hd : (a + wordsVal (ws.take n) * U64) / 2 ^ 64
            = wordsVal (ws.take n) := by
          show (a + wordsVal (List.take n ws) * U64) / U64 = wordsVal (List.take n ws)
          rw [Nat.add_mul_div_right _ _ (show 0 < U64 by decide),
            Nat.div_eq_of_lt (h a (by simp)), Nat.zero_add]
        rw [hd, List.getD_cons_succ]
        exact ih (fun w hw => h w (by simp [hw])) n i (by omega)

theorem stream_hi_zero (ws : List Nat) (h : ∀ w ∈ ws, w < U64) (n i : Nat) (hi : n ≤ i) :
    wordsVal (ws.take n) / 2 ^ (64 * i) = 0 := by
  apply Nat.div_eq_of_lt
  have h1 : wordsVal (ws.take n) < 2 ^ (64 * (ws.take n).length) :=
    wordsVal_lt _ (fun w hw => h w (List.mem_of_mem_take hw))
  have h2 : (ws.take n).length ≤ n := by
    rw [List.length_take]
    omega
  exact lt_of_lt_of_le h1 (Nat.pow_le_pow_right (by omega) (by omega))

theorem normReader_spec (br : BitReader) (h : br.Wf) :
    (normReader br).words = br.words ∧ (normReader br).n_words = br.n_words ∧
      (normReader br).pos = br.pos ∧ (normReader br).Wf ∧ (normReader br).consumed < 64 := by
  obtain ⟨h1, h2, h3⟩ := h
  unfold normReader
  by_cases hc : br.consumed = 64
  · rw [if_pos hc]
    refine ⟨rfl, rfl, ?_, ⟨Nat.le_of_lt (by show (0 : Nat) < 64; omega), h2, ?_⟩,
      by show (0 : Nat) < 64; omega⟩
    · show 64 * (br.idx + 1) + 0 = br.pos
      unfold BitReader.pos
      omega
    · dsimp only
  · rw [if_neg hc]
    exact ⟨rfl, rfl, rfl, ⟨h1, h2, h3⟩, by omega⟩

theorem getLoop_spec : ∀ (fuel : Nat) (br : BitReader) (res produced w : Nat),
    w ≤ fuel → br.Wf → res < 2 ^ produced →
    (getLoop fuel br res produced w).2.words = br.words ∧
      (getLoop fuel br res produced w).2.n_words = br.n_words ∧
      (getLoop fuel br res produced w).2.Wf ∧
      (getLoop fuel br res produced w).2.pos = br.pos + w ∧
      (getLoop fuel br res produced w).1
        = res + (br.stream / 2 ^ br.pos % 2 ^ w) * 2 ^ produced := by
  intro fuel
  induction fuel with
  | zero =>
    intro br res produced w hfuel hWf hres
    have hw0 : w = 0 := by omega
    subst hw0
    refine ⟨rfl, rfl, hWf, ?_, ?_⟩
    · show br.pos = br.pos + 0
      omega
    · show res = res + br.stream / 2 ^ br.pos % 2 ^ 0 * 2 ^ produced
      simp [Nat.mod_one]
  | succ fuel ih =>
    intro br res produced w hfuel hWf hres
    by_cases hw0 : w = 0
    · subst hw0
      refine ⟨rfl, rfl, hWf, ?_, ?_⟩
      · show br.pos = br.pos + 0
        omega
      · show res = res + br.stream / 2 ^ br.pos % 2 ^ 0 * 2 ^ produced
        simp [Nat.mod_one]
    · obtain ⟨hnw, hnn, hnpos, hnWf, hnc⟩ := normReader_spec br hWf
      have hnstream : (normReader br).stream = br.stream := by
        unfold BitReader.stream
        rw [hnw, hnn]
      -- abbreviations for the loop locals
      have htake1 : 1 ≤ min w (64 - (normReader br).consumed) := by omega
      have htakele : min w (64 - (normReader br).consumed) ≤ 64 - (normReader br).consumed := by omega
      -- the chunk read from the current word is the slice of the stream
      -- at the cursor of width `take`
      have hchunk0 : (normReader br).cur >>> (normReader br).consumed
          = br.stream / 2 ^ br.pos % 2 ^ (64 - (normReader br).consumed) := by
        obtain ⟨hc1, hc2, hc3⟩ := hnWf
        by_cases hin : (normReader br).idx < (normReader br).n_words
        · rw [hc3, if_pos hin]
          have hgd : (normReader br).words.getD (normReader br).idx 0
              = wordsVal ((normReader br).words.take (normReader br).n_words)
                  / 2 ^ (64 * (normReader br).idx) % U64 :=
            (stream_getD (normReader br).words (hnw ▸ hWf.2.1) (normReader br).n_words
              (normReader br).idx hin).symm
          rw [hgd, Nat.shiftRight_eq_div_pow]
          have hce : (normReader br).consumed + (64 - (normReader br).consumed) = 64 := by
            omega
          have hsplit : U64 = 2 ^ (normReader br).consumed * 2 ^ (64 - (normReader br).consumed) := by
            rw [← pow_add, hce]
            rfl
          rw [hsplit, Nat.mod_mul_right_div_self, Nat.div_div_eq_div_mul, ← pow_add]
          have hp : 64 * (normReader br).idx + (normReader br).consumed = br.pos := by
            rw [← hnpos]
            rfl
          rw [hp, ← hnstream]
          rfl
        · rw [hc3, if_neg hin, Nat.zero_shiftRight]
          have hz : br.stream / 2 ^ br.pos = 0 := by
            apply Nat.div_eq_of_lt
            have h1 : br.stream < 2 ^ (64 * br.n_words) := by
              unfold BitReader.stream
              have := wordsVal_lt (br.words.take br.n_words)
                (fun x hx => hWf.2.1 x (List.mem_of_mem_take hx))
              refine lt_of_lt_of_le this (Nat.pow_le_pow_right (by omega) ?_)
              rw [List.length_take]
              omega
            refine lt_of_lt_of_le h1 (Nat.pow_le_pow_right (by omega) ?_)
            have hp : br.pos = 64 * (normReader br).idx + (normReader br).consumed := by
              rw [← hnpos]
              rfl
            rw [hnn] at hin
            omega
          rw [hz]
          simp
      have hchunklt : br.stream / 2 ^ br.pos % 2 ^ (64 - (normReader br).consumed)
          < 2 ^ (64 - (normReader br).consumed) := Nat.mod_lt _ (by positivity)
      -- one unfolding of the loop
      have hstep : getLoop (fuel + 1) br res produced w
          = getLoop fuel
              { normReader br with
                  consumed := (normReader br).consumed + min w (64 - (normReader br).consumed) }
              (res |||
                ((if min w (64 - (normReader br).consumed) < 64
                  then ((normReader br).cur >>> (normReader br).consumed)
                    &&& ((1 <<< min w (64 - (normReader br).consumed)) - 1)
                  else (normReader br).cur >>> (normReader br).consumed) <<< produced))
              (produced + min w (64 - (normReader br).consumed))
              (w - min w (64 - (normReader br).consumed)) := by
        simp only [getLoop]
        rw [if_neg hw0]
      rw [hstep]
      -- value of the chunk written in this iteration
      have hch : (if min w (64 - (normReader br).consumed) < 64
            then ((normReader br).cur >>> (normReader br).consumed)
              &&& ((1 <<< min w (64 - (normReader br).consumed)) - 1)
            else (normReader br).cur >>> (normReader br).consumed)
          = br.stream / 2 ^ br.pos % 2 ^ min w (64 - (normReader br).consumed) := by
        by_cases hlt : min w (64 - (normReader br).consumed) < 64
        · rw [if_pos hlt, Nat.one_shiftLeft, Nat.and_pow_two_sub_one_eq_mod, hchunk0]
          exact Nat.mod_mod_of_dvd _ (Nat.pow_dvd_pow 2 htakele)
        · rw [if_neg hlt, hchunk0]
          have he : 64 - (normReader br).consumed = min w (64 - (normReader br).consumed) := by
            omega
          rw [← he]
      rw [hch]
      have hchlt : br.stream / 2 ^ br.pos % 2 ^ min w (64 - (normReader br).consumed)
          < 2 ^ min w (64 - (normReader br).consumed) := Nat.mod_lt _ (by positivity)
      have hres2 : res ||| (br.stream / 2 ^ br.pos % 2 ^ min w (64 - (normReader br).consumed))
            <<< produced
          = res + (br.stream / 2 ^ br.pos % 2 ^ min w (64 - (normReader br).consumed))
            * 2 ^ produced :=
        lor_shl_add produced res _ hres
      have hres2lt : res + (br.stream / 2 ^ br.pos % 2 ^ min w (64 - (normReader br).consumed))
            * 2 ^ produced
          < 2 ^ (produced + min w (64 - (normReader br).consumed)) := by
        rw [pow_add]
        calc res + (br.stream / 2 ^ br.pos % 2 ^ min w (64 - (normReader br).consumed))
              * 2 ^ produced
            < 2 ^ produced + (br.stream / 2 ^ br.pos % 2 ^ min w (64 - (normReader br).consumed))
              * 2 ^ produced := by omega
        _ = (1 + br.stream / 2 ^ br.pos % 2 ^ min w (64 - (normReader br).consumed))
              * 2 ^ produced := by ring
        _ ≤ 2 ^ min w (64 - (normReader br).consumed) * 2 ^ produced :=
              Nat.mul_le_mul_right _ (by omega)
        _ = 2 ^ produced * 2 ^ min w (64 - (normReader br).consumed) := by ring
      -- the advanced reader is well-formed
      obtain ⟨hac, haw, hacur⟩ := hnWf
      have hWf2 : ({ normReader br with
          consumed := (normReader br).consumed
            + min w (64 - (normReader br).consumed) } : BitReader).Wf := by
        refine ⟨?_, haw, hacur⟩
        show (normReader br).consumed + min w (64 - (normReader br).consumed) ≤ 64
        omega
      rw [hres2]
      obtain ⟨hfw, hfn, hfWf, hfpos, hfval⟩ :=
        ih { normReader br with
              consumed := (normReader br).consumed + min w (64 - (normReader br).consumed) }
          (res + (br.stream / 2 ^ br.pos % 2 ^ min w (64 - (normReader br).consumed))
            * 2 ^ produced)
          (produced + min w (64 - (normReader br).consumed))
          (w - min w (64 - (normReader br).consumed))
          (by omega) hWf2 hres2lt
      have hw2 : ({ normReader br with
          consumed := (normReader br).consumed
            + min w (64 - (normReader br).consumed) } : BitReader).words = br.words := hnw
      have hn2 : ({ normReader br with
          consumed := (normReader br).consumed
            + min w (64 - (normReader br).consumed) } : BitReader).n_words = br.n_words := hnn
      have hs2 : ({ normReader br with
          consumed := (normReader br).consumed
            + min w (64 - (normReader br).consumed) } : BitReader).stream = br.stream := by
        unfold BitReader.stream
        rw [hw2, hn2]
      have hp2 : ({ normReader br with
          consumed := (normReader br).consumed
            + min w (64 - (normReader br).consumed) } : BitReader).pos
          = br.pos + min w (64 - (normReader br).consumed) := by
        show 64 * (normReader br).idx
            + ((normReader br).consumed + min w (64 - (normReader br).consumed))
          = br.pos + min w (64 - (normReader br).consumed)
        have : 64 * (normReader br).idx + (normReader br).consumed = br.pos := by
          rw [← hnpos]
          rfl
        omega
      refine ⟨hfw.trans hw2, hfn.trans hn2, hfWf, ?_, ?_⟩
      · rw [hfpos, hp2]
        omega
      · rw [hfval, hs2, hp2]
        have hsplit := mod_pow_split (br.stream / 2 ^ br.pos)
          (min w (64 - (normReader br).consumed)) (w - min w (64 - (normReader br).consumed))
        have hmm : min w (64 - (normReader br).consumed)
            + (w - min w (64 - (normReader br).consumed)) = w := by omega
        rw [hmm] at hsplit
        have hdd : br.stream / 2 ^ (br.pos + min w (64 - (normReader br).consumed))
            = br.stream / 2 ^ br.pos / 2 ^ min w (64 - (normReader br).consumed) := by
          rw [Nat.div_div_eq_div_mul, ← pow_add]
        rw [hdd, hsplit, pow_add]
        ring

theorem get_spec (br : BitReader) (w : Nat) (h : br.Wf) :
    (br.get w).2.words = br.words ∧ (br.get w).2.n_words = br.n_words ∧ (br.get w).2.Wf ∧
      (br.get w).2.pos = br.pos + w ∧ (br.get w).1 = br.stream / 2 ^ br.pos % 2 ^ w := by
  unfold BitReader.get
  by_cases hw : w = 0
  · rw [if_pos hw]
    subst hw
    refine ⟨rfl, rfl, h, ?_, ?_⟩
    · show br.pos = br.pos + 0
      omega
    · show (0 : Nat) = br.stream / 2 ^ br.pos % 2 ^ 0
      simp [Nat.mod_one]
  · rw [if_neg hw]
    obtain ⟨h1, h2, h3, h4, h5⟩ := getLoop_spec w br 0 0 w (le_refl w) h (by decide)
    refine ⟨h1, h2, h3, h4, ?_⟩
    rw [h5]
    simp

theorem bitLen_mk (ws : List Nat) (c f : Nat) :
    (⟨ws, c, f⟩ : BitWriter).bitLen = 64 * ws.length + f := rfl

theorem val_mk (ws : List Nat) (c f : Nat) :
    (⟨ws, c, f⟩ : BitWriter).val = wordsVal ws + c * 2 ^ (64 * ws.length) := rfl

theorem bitLen_def (bw : BitWriter) : bw.bitLen = 64 * bw.words.length + bw.filled := rfl

theorem val_def (bw : BitWriter) : bw.val = wordsVal bw.words + bw.cur * 2 ^ (64 * bw.words.length) := rfl

theorem putLoop_spec : ∀ (fuel : Nat) (bw : BitWriter) (val remain : Nat),
    remain ≤ fuel → bw.Wf → val < 2 ^ remain →
    (putLoop fuel bw val remain).Wf ∧
      (putLoop fuel bw val remain).bitLen = bw.bitLen + remain ∧
      (putLoop fuel bw val remain).val = bw.val + val * 2 ^ bw.bitLen := by
  intro fuel
  induction fuel with
  | zero =>
    intro bw val remain h1 hWf h2
    have hr : remain = 0 := by omega
    subst hr
    have hv : val = 0 := by
      have hp : (2 : Nat) ^ 0 = 1 := rfl
      omega
    subst hv
    refine ⟨hWf, ?_, ?_⟩
    · show bw.bitLen = bw.bitLen + 0
      omega
    · show bw.val = bw.val + 0 * 2 ^ bw.bitLen
      simp
  | succ fuel ih =>
    intro bw val remain h1 hWf h2
    by_cases hr0 : remain = 0
    · subst hr0
      have hv : val = 0 := by
        have hp : (2 : Nat) ^ 0 = 1 := rfl
        omega
      subst hv
      have he : putLoop (fuel + 1) bw 0 0 = bw := rfl
      rw [he]
      exact ⟨hWf, by omega, by simp⟩
    · obtain ⟨hww, hfl, hcu⟩ := hWf
      have htake1 : 1 ≤ min remain (64 - bw.filled) := by omega
      have htakele : min remain (64 - bw.filled) ≤ 64 - bw.filled := by omega
      have hstep : putLoop (fuel + 1) bw val remain
          = if bw.filled + min remain (64 - bw.filled) = 64 then
              putLoop fuel
                ⟨bw.words ++ [bw.cur ||| ((val &&& (2 ^ min remain (64 - bw.filled) - 1)) <<< bw.filled)], 0, 0⟩
                (val >>> min remain (64 - bw.filled)) (remain - min remain (64 - bw.filled))
            else
              putLoop fuel
                ⟨bw.words, bw.cur ||| ((val &&& (2 ^ min remain (64 - bw.filled) - 1)) <<< bw.filled),
                  bw.filled + min remain (64 - bw.filled)⟩
                (val >>> min remain (64 - bw.filled)) (remain - min remain (64 - bw.filled)) := by
        simp only [putLoop]
        rw [if_neg hr0]
      have hchunk : val &&& (2 ^ min remain (64 - bw.filled) - 1)
          = val % 2 ^ min remain (64 - bw.filled) := Nat.and_pow_two_sub_one_eq_mod _ _
      have hcur2 : bw.cur ||| ((val % 2 ^ min remain (64 - bw.filled)) <<< bw.filled)
          = bw.cur + (val % 2 ^ min remain (64 - bw.filled)) * 2 ^ bw.filled :=
        lor_shl_add bw.filled bw.cur _ hcu
      have hmlt : val % 2 ^ min remain (64 - bw.filled) < 2 ^ min remain (64 - bw.filled) :=
        Nat.mod_lt _ (by positivity)
      have hcur2lt : bw.cur + (val % 2 ^ min remain (64 - bw.filled)) * 2 ^ bw.filled
          < 2 ^ (bw.filled + min remain (64 - bw.filled)) := by
        rw [pow_add]
        calc bw.cur + (val % 2 ^ min remain (64 - bw.filled)) * 2 ^ bw.filled
            < 2 ^ bw.filled + (val % 2 ^ min remain (64 - bw.filled)) * 2 ^ bw.filled := by omega
        _ = (1 + val % 2 ^ min remain (64 - bw.filled)) * 2 ^ bw.filled := by ring
        _ ≤ 2 ^ min remain (64 - bw.filled) * 2 ^ bw.filled :=
              Nat.mul_le_mul_right _ (by omega)
        _ = 2 ^ bw.filled * 2 ^ min remain (64 - bw.filled) := by ring
      have hshr : val >>> min remain (64 - bw.filled)
          < 2 ^ (remain - min remain (64 - bw.filled)) := by
        apply shiftRight_lt
        have he : min remain (64 - bw.filled) + (remain - min remain (64 - bw.filled)) = remain := by
          omega
        rw [he]
        exact h2
      have hpows : (2 : Nat) ^ (bw.filled + min remain (64 - bw.filled)) ≤ 2 ^ 64 :=
        Nat.pow_le_pow_right (by omega) (by omega)
      rw [hstep, hchunk, hcur2]
      by_cases hfull : bw.filled + min remain (64 - bw.filled) = 64
      · rw [if_pos hfull]
        have hWf2 : (⟨bw.words ++ [bw.cur + (val % 2 ^ min remain (64 - bw.filled)) * 2 ^ bw.filled],
            0, 0⟩ : BitWriter).Wf := by
          refine ⟨?_, by show (0 : Nat) < 64; omega, by show (0 : Nat) < 2 ^ 0; decide⟩
          intro x hx
          rw [List.mem_append] at hx
          rcases hx with hx | hx
          · exact hww x hx
          · rw [List.mem_singleton] at hx
            subst hx
            show _ < U64
            calc bw.cur + (val % 2 ^ min remain (64 - bw.filled)) * 2 ^ bw.filled
                < 2 ^ (bw.filled + min remain (64 - bw.filled)) := hcur2lt
            _ ≤ 2 ^ 64 := hpows
        obtain ⟨hfWf, hflen, hfval⟩ := ih _ (val >>> min remain (64 - bw.filled))
          (remain - min remain (64 - bw.filled)) (by omega) hWf2 hshr
        have hd : val = val % 2 ^ min remain (64 - bw.filled)
            + (val / 2 ^ min remain (64 - bw.filled)) * 2 ^ min remain (64 - bw.filled) := by
          rw [Nat.mul_comm]
          exact (Nat.mod_add_div val _).symm
        refine ⟨hfWf, ?_, ?_⟩
        · rw [hflen, bitLen_mk, bitLen_def, List.length_append, List.length_cons,
            List.length_nil]
          omega
        · rw [hfval, val_mk, bitLen_mk, val_def, bitLen_def, wordsVal_append_one,
            Nat.shiftRight_eq_div_pow, List.length_append, List.length_cons, List.length_nil]
        
          have he1 : 64 * (bw.words.length + (0 + 1)) + 0
              = 64 * bw.words.length + bw.filled + min remain (64 - bw.filled) := by
            omega
          rw [he1]
          conv_rhs => rw [hd]
          simp only [pow_add]
          ring
      · rw [if_neg hfull]
        have hWf2 : (⟨bw.words, bw.cur + (val % 2 ^ min remain (64 - bw.filled)) * 2 ^ bw.filled,
            bw.filled + min remain (64 - bw.filled)⟩ : BitWriter).Wf := by
          refine ⟨hww, ?_, hcur2lt⟩
          show bw.filled + min remain (64 - bw.filled) < 64
          omega
        obtain ⟨hfWf, hflen, hfval⟩ := ih _ (val >>> min remain (64 - bw.filled))
          (remain - min remain (64 - bw.filled)) (by omega) hWf2 hshr
        have hd : val = val % 2 ^ min remain (64 - bw.filled)
            + (val / 2 ^ min remain (64 - bw.filled)) * 2 ^ min remain (64 - bw.filled) := by
          rw [Nat.mul_comm]
          exact (Nat.mod_add_div val _).symm
        refine ⟨hfWf, ?_, ?_⟩
        · rw [hflen, bitLen_mk, bitLen_def]
          omega
        · rw [hfval, val_mk, bitLen_mk, val_def, bitLen_def, Nat.shiftRight_eq_div_pow]
          conv_rhs => rw [hd]
          simp only [pow_add]
          ring

theorem put_spec (bw : BitWriter) (val w : Nat) (h : bw.Wf) (hw : w ≤ 64) :
    (bw.put val w).Wf ∧ (bw.put val w).bitLen = bw.bitLen + w ∧
      (bw.put val w).val = bw.val + (val % 2 ^ w) * 2 ^ bw.bitLen := by
  by_cases hw0 : w = 0
  · subst hw0
    have he : bw.put val 0 = bw := rfl
    rw [he]
    exact ⟨h, by omega, by simp [Nat.mod_one]⟩
  · have hv : (if w < 64 then (val % U64) &&& ((1 <<< w) - 1) else (val % U64)) = val % 2 ^ w := by
      by_cases hlt : w < 64
      · rw [if_pos hlt, Nat.one_shiftLeft, Nat.and_pow_two_sub_one_eq_mod]
        exact Nat.mod_mod_of_dvd val (pow_dvd_pow 2 (by omega))
      · have hw64 : w = 64 := by omega
        subst hw64
        rw [if_neg hlt]
        rfl
    have hput : bw.put val w = putLoop w bw (val % 2 ^ w) w := by
      unfold BitWriter.put
      rw [if_neg hw0]
      dsimp only
      rw [hv]
    rw [hput]
    exact putLoop_spec w bw (val % 2 ^ w) w (le_refl w) h (Nat.mod_lt _ (by positivity))

theorem flush_spec (bw : BitWriter) (h : bw.Wf) :
    (∀ x ∈ (bw.flush).words, x < U64) ∧ wordsVal (bw.flush).words = bw.val := by
  obtain ⟨h1, h2, h3⟩ := h
  unfold BitWriter.flush
  by_cases hf : bw.filled = 0
  · rw [if_neg (not_not_intro hf)]
    refine ⟨h1, ?_⟩
    have hc : bw.cur = 0 := by
      rw [hf] at h3
      have hp : (2 : Nat) ^ 0 = 1 := rfl
      omega
    unfold BitWriter.val
    rw [hc]
    ring
  · rw [if_pos hf]
    constructor
    · intro x hx
      rw [List.mem_append] at hx
      rcases hx with hx | hx
      · exact h1 x hx
      · rw [List.mem_singleton] at hx
        subst hx
        show bw.cur < U64
        calc bw.cur < 2 ^ bw.filled := h3
        _ ≤ 2 ^ 64 := Nat.pow_le_pow_right (by omega) (by omega)
    · rw [wordsVal_append_one]
      rfl

theorem empty_Wf : BitWriter.empty.Wf :=
  ⟨fun x hx => absurd hx (List.not_mem_nil x),
    by show (0 : Nat) < 64; omega,
    by show (0 : Nat) < 2 ^ 0; decide⟩

theorem sval_cons (d : Nat × Nat) (L : List (Nat × Nat)) :
    sval (d :: L) = d.1 + sval L * 2 ^ d.2 := rfl

theorem ofWords_Wf (ws : List Nat) (h : ∀ x ∈ ws, x < U64) :
    (BitReader.ofWords ws ws.length).Wf := by
  refine ⟨by show (0 : Nat) ≤ 64; omega, h, ?_⟩
  show (if ws.length ≠ 0 then ws.getD 0 0 else 0) = if 0 < ws.length then ws.getD 0 0 else 0
  by_cases hn : ws.length = 0
  · rw [if_neg (not_not_intro hn), if_neg (by omega)]
  · rw [if_pos hn, if_pos (by omega)]

theorem write_fold_spec : ∀ (ps : List (Nat × Nat)) (bw : BitWriter), bw.Wf →
    (∀ p ∈ ps, p.2 ≤ 64) →
    (ps.foldl (fun bw p => bw.put p.1 p.2) bw).Wf ∧
      (ps.foldl (fun bw p => bw.put p.1 p.2) bw).bitLen
        = bw.bitLen + (ps.map (fun p => p.2)).sum ∧
      (ps.foldl (fun bw p => bw.put p.1 p.2) bw).val
        = bw.val + sval (ps.map (fun p => (p.1 % 2 ^ p.2, p.2))) * 2 ^ bw.bitLen := by
  intro ps
  induction ps with
  | nil =>
    intro bw h _
    refine ⟨h, by simp, by simp [sval]⟩
  | cons p rest ih =>
    intro bw hWf hw
    rw [List.foldl_cons, List.map_cons, List.map_cons, List.sum_cons]
    obtain ⟨hWf1, hlen1, hval1⟩ := put_spec bw p.1 p.2 hWf (hw p (by simp))
    obtain ⟨hWf2, hlen2, hval2⟩ := ih (bw.put p.1 p.2) hWf1 (fun q hq => hw q (by simp [hq]))
    refine ⟨hWf2, ?_, ?_⟩
    · rw [hlen2, hlen1]
      omega
    · rw [hval2, hval1, hlen1, sval_cons]
      simp only [pow_add]
      ring

theorem read_fold_spec : ∀ (ds : List (Nat × Nat)) (br : BitReader), br.Wf →
    br.stream / 2 ^ br.pos = sval ds → (∀ d ∈ ds, d.1 < 2 ^ d.2) →
    readWidths br (ds.map (fun d => d.2)) = ds.map (fun d => d.1) := by
  intro ds
  induction ds with
  | nil => intro br _ _ _; rfl
  | cons d rest ih =>
    intro br hWf hstream hlt
    rw [List.map_cons, List.map_cons]
    show (br.get d.2).1 :: readWidths (br.get d.2).2 (rest.map (fun d => d.2))
        = d.1 :: rest.map (fun d => d.1)
    obtain ⟨h1, h2, h3, h4, h5⟩ := get_spec br d.2 hWf
    have hd1 : d.1 < 2 ^ d.2 := hlt d (by simp)
    congr 1
    · rw [h5, hstream, sval_cons, Nat.add_mul_mod_self_right]
      exact Nat.mod_eq_of_lt hd1
    · apply ih _ h3
      · have hs : (br.get d.2).2.stream = br.stream := by
          unfold BitReader.stream
          rw [h1, h2]
        rw [hs, h4, pow_add, ← Nat.div_div_eq_div_mul, hstream, sval_cons,
          Nat.add_mul_div_right _ _ (by positivity : (0:Nat) < 2 ^ d.2),
          Nat.div_eq_of_lt hd1, Nat.zero_add]
      · exact fun q hq => hlt q (by simp [hq])

/-- Claim C2 as stated: writing any sequence of (value, width) pairs
with widths in `[0, 64]` and flushing, then reading back the same
widths in order, returns for each pair the `w` least-significant bits
of the value. -/
theorem claim2_bit_codec_roundtrip (ps : List (Nat × Nat)) (hw : ∀ p ∈ ps, p.2 ≤ 64) :
    readWidths (BitReader.ofWords (writeAll ps).words (writeAll ps).words.length)
      (ps.map (fun p => p.2)) = ps.map (fun p => p.1 % 2 ^ p.2) := by
  obtain ⟨hWf1, hlen1, hval1⟩ := write_fold_spec ps BitWriter.empty empty_Wf hw
  have hwa : writeAll ps = (ps.foldl (fun bw p => bw.put p.1 p.2) BitWriter.empty).flush := rfl
  obtain ⟨hmem, hwv⟩ := flush_spec _ hWf1
  rw [hwa]
  have hval : wordsVal ((ps.foldl (fun bw p => bw.put p.1 p.2) BitWriter.empty).flush).words
      = sval (ps.map (fun p => (p.1 % 2 ^ p.2, p.2))) := by
    rw [hwv, hval1]
    show 0 + _ * 2 ^ (0 : Nat) = _
    simp
  have hRWf : (BitReader.ofWords
      ((ps.foldl (fun bw p => bw.put p.1 p.2) BitWriter.empty).flush).words
      ((ps.foldl (fun bw p => bw.put p.1 p.2) BitWriter.empty).flush).words.length).Wf :=
    ofWords_Wf _ hmem
  have hds2 : (ps.map (fun p => (p.1 % 2 ^ p.2, p.2))).map (fun d => d.2)
      = ps.map (fun p => p.2) := by
    rw [List.map_map]
    rfl
  have hds1 : (ps.map (fun p => (p.1 % 2 ^ p.2, p.2))).map (fun d => d.1)
      = ps.map (fun p => p.1 % 2 ^ p.2) := by
    rw [List.map_map]
    rfl
  rw [← hds2, ← hds1]
  apply read_fold_spec _ _ hRWf
  · show wordsVal (((ps.foldl (fun bw p => bw.put p.1 p.2) BitWriter.empty).flush).words.take
        ((ps.foldl (fun bw p => bw.put p.1 p.2) BitWriter.empty).flush).words.length)
        / 2 ^ (64 * 0 + 0)
      = sval (ps.map (fun p => (p.1 % 2 ^ p.2, p.2)))
    rw [List.take_length]
    simp only [Nat.mul_zero, Nat.add_zero, pow_zero, Nat.div_one]
    exact hval
  · intro d hd
    rw [List.mem_map] at hd
    obtain ⟨p, _, hp⟩ := hd
    rw [← hp]
    exact Nat.mod_lt _ (by positivity)

/-- Witness for claim C2 on a mixed-width sequence including widths 0
and 64. -/
theorem claim2_bit_codec_roundtrip_witness :
    readWidths
      (BitReader.ofWords (writeAll [(5, 3), (1000, 7), (2 ^ 64 - 1, 64), (6, 0), (81, 12)]).words
        (writeAll [(5, 3), (1000, 7), (2 ^ 64 - 1, 64), (6, 0), (81, 12)]).words.length)
      ([(5, 3), (1000, 7), (2 ^ 64 - 1, 64), (6, 0), (81, 12)].map (fun p => p.2))
      = [(5, 3), (1000, 7), (2 ^ 64 - 1, 64), (6, 0), (81, 12)].map (fun p => p.1 % 2 ^ p.2) :=
  claim2_bit_codec_roundtrip [(5, 3), (1000, 7), (2 ^ 64 - 1, 64), (6, 0), (81, 12)] (by decide)

/-- Claim C6: a `get` never fails, its value consists of the bits of
the stream at the cursor (the stream has `64 * n_words` bits, so any
portion past the end contributes zero bits), and on a reader whose
cursor is at or past the end of the stream every `get` returns 0. -/
theorem claim6_overread_zero (br : BitReader) (w : Nat) (h : br.Wf) :
    (br.get w).1 = br.stream / 2 ^ br.pos % 2 ^ w ∧
      br.stream < 2 ^ (64 * br.n_words) ∧
      (64 * br.n_words ≤ br.pos → (br.get w).1 = 0) := by
  obtain ⟨h1, h2, h3, h4, h5⟩ := get_spec br w h
  have hlt : br.stream < 2 ^ (64 * br.n_words) := by
    unfold BitReader.stream
    have hb := wordsVal_lt (br.words.take br.n_words)
      (fun x hx => h.2.1 x (List.mem_of_mem_take hx))
    refine lt_of_lt_of_le hb (Nat.pow_le_pow_right (by omega) ?_)
    rw [List.length_take]
    omega
  refine ⟨h5, hlt, ?_⟩
  intro hp
  rw [h5, Nat.div_eq_of_lt (lt_of_lt_of_le hlt (Nat.pow_le_pow_right (by omega) hp))]
  simp

/-- Witness for claim C6: an empty reader returns 0 for a 7-bit read. -/
theorem claim6_overread_zero_witness :
    ((BitReader.ofWords [] 0).get 7).1
        = (BitReader.ofWords [] 0).stream / 2 ^ (BitReader.ofWords [] 0).pos % 2 ^ 7 ∧
      (BitReader.ofWords [] 0).stream < 2 ^ (64 * (BitReader.ofWords [] 0).n_words) ∧
      (64 * (BitReader.ofWords [] 0).n_words ≤ (BitReader.ofWords [] 0).pos →
        ((BitReader.ofWords [] 0).get 7).1 = 0) :=
  claim6_overread_zero (BitReader.ofWords [] 0) 7
    (ofWords_Wf [] (fun x hx => absurd hx (List.not_mem_nil x)))

/-- Claim C9: after `scan(bit_pos)`, a `get(w)` returns the `w` bits of
the stream starting at absolute bit position `bit_pos` (for any
`bit_pos`, in particular every in-range one). -/
theorem claim9_scan_get (br : BitReader) (bit_pos w : Nat) (h : br.Wf) :
    ((br.scan bit_pos).get w).1 = br.stream / 2 ^ bit_pos % 2 ^ w := by
  have hWf2 : (br.scan bit_pos).Wf := by
    refine ⟨?_, h.2.1, ?_⟩
    · show bit_pos % 64 ≤ 64
      have := Nat.mod_lt bit_pos (show (0:Nat) < 64 by omega)
      omega
    · rfl
  obtain ⟨h1, h2, h3, h4, h5⟩ := get_spec (br.scan bit_pos) w hWf2
  rw [h5]
  have hpos : (br.scan bit_pos).pos = bit_pos := by
    show 64 * (bit_pos / 64) + bit_pos % 64 = bit_pos
    exact Nat.div_add_mod bit_pos 64
  have hstream : (br.scan bit_pos).stream = br.stream := rfl
  rw [hpos, hstream]

/-- Witness for claim C9: scanning to bit 8 of a two-word stream and
reading 10 bits returns bits 8 to 17. -/
theorem claim9_scan_get_witness :
    (((BitReader.ofWords [65280, 3] 2).scan 8).get 10).1
      = (BitReader.ofWords [65280, 3] 2).stream / 2 ^ 8 % 2 ^ 10 :=
  claim9_scan_get (BitReader.ofWords [65280, 3] 2) 8 10
    (ofWords_Wf [65280, 3] (by decide))

/-! Lemmas for the Elias-Fano block encoder. -/

theorem sub64_eq_sub (a b : Nat) (hb : b ≤ a) (ha : a < U64) : sub64 a b = a - b := by
  unfold sub64
  have hbu : b % U64 = b := Nat.mod_eq_of_lt (by omega)
  rw [hbu]
  have he : a + (U64 - b) = (a - b) + U64 := by
    have : b ≤ U64 := by omega
    omega
  rw [he, Nat.add_mod_right]
  exact Nat.mod_eq_of_lt (by omega)

theorem lor_lt_u64 (a b : Nat) (ha : a < U64) (hb : b < U64) : a ||| b < U64 :=
  Nat.bitwise_lt ha hb

theorem getD_set_eq (l : List Nat) (i a : Nat) (h : i < l.length) :
    (l.set i a).getD i 0 = a := by
  rw [List.getD_eq_getElem _ _ (by rw [List.length_set]; omega)]
  exact List.getElem_set_self _

theorem getD_set_ne (l : List Nat) (i j a : Nat) (h : i ≠ j) :
    (l.set i a).getD j 0 = l.getD j 0 := by
  by_cases hj : j < l.length
  · rw [List.getD_eq_getElem _ _ (by rw [List.length_set]; omega),
      List.getD_eq_getElem _ _ hj]
    exact List.getElem_set_ne h _
  · rw [List.getD_eq_default _ _ (by rw [List.length_set]; omega),
      List.getD_eq_default _ _ (by omega)]

theorem getD_replicate_zero (k j : Nat) : (List.replicate k (0 : Nat)).getD j 0 = 0 := by
  by_cases hj : j < k
  · rw [List.getD_eq_getElem _ _ (by rw [List.length_replicate]; omega)]
    simp
  · exact List.getD_eq_default _ _ (by rw [List.length_replicate]; omega)

theorem bitIn_replicate_zero (k p : Nat) : bitIn (List.replicate k 0) p = false := by
  unfold bitIn
  rw [getD_replicate_zero, Nat.zero_testBit]

theorem getD_map_range (f : Nat → Nat) (n k : Nat) (h : k < n) :
    ((List.range n).map f).getD k 0 = f k := by
  rw [List.getD_eq_getElem _ _ (by rw [List.length_map, List.length_range]; omega)]
  rw [List.getElem_map]
  simp

theorem sorted_getD_mono (V : List Nat) (hs : List.Sorted (· ≤ ·) V) (i j : Nat)
    (hij : i ≤ j) (hj : j < V.length) : V.getD i 0 ≤ V.getD j 0 := by
  rcases Nat.lt_or_ge i j with h | h
  · rw [List.getD_eq_getElem _ _ (by omega), List.getD_eq_getElem _ _ hj]
    exact List.pairwise_iff_getElem.mp hs i j (by omega) hj h
  · have : i = j := by omega
    rw [this]

theorem setHighBit_length (ws : List Nat) (pos : Nat) :
    (setHighBit ws pos).length = ws.length := List.length_set ws _ _

theorem setHighBit_lt (ws : List Nat) (pos : Nat) (h : ∀ x ∈ ws, x < U64) :
    ∀ x ∈ setHighBit ws pos, x < U64 := by
  intro x hx
  unfold setHighBit at hx
  rcases List.mem_or_eq_of_mem_set hx with hm | he
  · exact h x hm
  · subst he
    apply lor_lt_u64
    · by_cases hin : pos / 64 < ws.length
      · exact getD_lt_of_forall_lt ws _ hin h
      · rw [List.getD_eq_default _ _ (by omega)]
        show (0 : Nat) < U64
        decide
    · rw [Nat.one_shiftLeft]
      show 2 ^ (pos % 64) < 2 ^ 64
      exact Nat.pow_lt_pow_right (by omega) (by omega)

theorem setHighBit_bit (ws : List Nat) (pos p : Nat) (hin : pos / 64 < ws.length) :
    bitIn (setHighBit ws pos) p = (bitIn ws p || decide (p = pos)) := by
  unfold setHighBit bitIn
  by_cases hq : p / 64 = pos / 64
  · rw [hq, getD_set_eq _ _ _ hin, Nat.testBit_or, Nat.one_shiftLeft, Nat.testBit_two_pow]
    congr 1
    simp only [decide_eq_decide]
    omega
  · rw [getD_set_ne _ _ _ _ (by omega)]
    have hp : p ≠ pos := by
      intro hc
      subst hc
      exact hq rfl
    simp [hp]

theorem foldSet_length (f : Nat → Nat) :
    ∀ (is : List Nat) (ws : List Nat),
      (is.foldl (fun h i => setHighBit h (f i)) ws).length = ws.length := by
  intro is
  induction is with
  | nil => intro ws; rfl
  | cons i is ih =>
    intro ws
    rw [List.foldl_cons, ih, setHighBit_length]

theorem foldSet_lt (f : Nat → Nat) :
    ∀ (is : List Nat) (ws : List Nat), (∀ x ∈ ws, x < U64) →
      ∀ x ∈ is.foldl (fun h i => setHighBit h (f i)) ws, x < U64 := by
  intro is
  induction is with
  | nil => intro ws h; exact h
  | cons i is ih =>
    intro ws h
    rw [List.foldl_cons]
    exact ih _ (setHighBit_lt _ _ h)

theorem foldSet_bit (f : Nat → Nat) :
    ∀ (is : List Nat) (ws : List Nat), (∀ i ∈ is, f i / 64 < ws.length) → ∀ p,
      bitIn (is.foldl (fun h i => setHighBit h (f i)) ws) p
        = (bitIn ws p || is.any (fun i => decide (p = f i))) := by
  intro is
  induction is with
  | nil =>
    intro ws _ p
    simp
  | cons i is ih =>
    intro ws hlt p
    rw [List.foldl_cons, List.any_cons,
      ih (setHighBit ws (f i)) (by
        intro j hj
        rw [setHighBit_length]
        exact hlt j (by simp [hj])),
      setHighBit_bit _ _ _ (hlt i (by simp)), Bool.or_assoc]

theorem encodeHigh_length (V : List Nat) (floor l hw : Nat) :
    (encodeHigh V floor l hw).length = hw := by
  unfold encodeHigh
  rw [foldSet_length, List.length_replicate]

theorem encodeHigh_lt (V : List Nat) (floor l hw : Nat) :
    ∀ x ∈ encodeHigh V floor l hw, x < U64 := by
  unfold encodeHigh
  apply foldSet_lt
  intro x hx
  rw [List.eq_of_mem_replicate hx]
  show (0 : Nat) < U64
  decide

theorem encodeHigh_bit (V : List Nat) (floor l hw : Nat)
    (hin : ∀ i < V.length, highPos V floor l i / 64 < hw) (p : Nat) :
    bitIn (encodeHigh V floor l hw) p
      = (List.range V.length).any (fun i => decide (p = highPos V floor l i)) := by
  unfold encodeHigh
  rw [foldSet_bit _ _ _ (by
      intro i hi
      rw [List.length_replicate]
      exact hin i (List.mem_range.mp hi)),
    bitIn_replicate_zero, Bool.false_or]

theorem choose_l_eq_zero_range_lt (range n : Nat) (hn : 1 ≤ n)
    (h : EFBlock.choose_l range n = 0) (hr : range < U64) : range < 2 * n := by
  unfold EFBlock.choose_l at h
  rw [if_neg (by omega)] at h
  by_cases hq : range / n = 0
  · have := (Nat.div_eq_zero_iff (by omega)).mp hq
    omega
  · rw [if_neg hq] at h
    rw [floor_log2_eq_log2 (range / n) (Nat.pos_of_ne_zero hq)
      (by have := Nat.div_le_self range n; omega)] at h
    have h2 : range / n < 2 := by
      have := (Nat.log2_lt hq).mp (by omega : Nat.log2 (range / n) < 1)
      omega
    have := (Nat.div_lt_iff_lt_mul (by omega : 0 < n)).mp h2
    omega

theorem blockSub_lt (V : List Nat) : blockSub V < U64 := by
  unfold blockSub sub64
  exact Nat.mod_lt _ (by decide)

theorem noHighOverflow_lt (V : List Nat) (hno : noHighOverflow V = true) :
    blockSub V + 2 ^ blockL V < U64 := by
  unfold noHighOverflow at hno
  exact of_decide_eq_true hno

theorem blockRange_lt (V : List Nat) : blockRange V < U64 := by
  unfold blockRange
  exact Nat.mod_lt _ (by decide)

theorem blockRange_eq (V : List Nat) (hno : noHighOverflow V = true) :
    blockRange V = blockSub V + 1 := by
  have h1 := noHighOverflow_lt V hno
  have h2 : (1 : Nat) ≤ 2 ^ blockL V := Nat.one_le_two_pow
  unfold blockRange
  exact Nat.mod_eq_of_lt (by omega)

theorem blockL_le (V : List Nat) : blockL V ≤ 63 :=
  choose_l_le_63 _ _ (blockRange_lt V)

theorem blockSub_eq (V : List Nat) (hne : V ≠ []) (hs : List.Sorted (· ≤ ·) V)
    (hb : ∀ v ∈ V, v < U64) :
    blockSub V = V.getD (V.length - 1) 0 - V.getD 0 0 := by
  have hlen : 0 < V.length := List.length_pos.mpr hne
  unfold blockSub
  exact sub64_eq_sub _ _ (sorted_getD_mono V hs 0 (V.length - 1) (by omega) (by omega))
    (getD_lt_of_forall_lt V _ (by omega) hb)

theorem sub64_getD_eq (V : List Nat) (hs : List.Sorted (· ≤ ·) V)
    (hb : ∀ v ∈ V, v < U64) (i : Nat) (hi : i < V.length) :
    sub64 (V.getD i 0) (V.getD 0 0) = V.getD i 0 - V.getD 0 0 :=
  sub64_eq_sub _ _ (sorted_getD_mono V hs 0 i (by omega) hi)
    (getD_lt_of_forall_lt V _ hi hb)

theorem getD_sub_le_blockSub (V : List Nat) (hne : V ≠ []) (hs : List.Sorted (· ≤ ·) V)
    (hb : ∀ v ∈ V, v < U64) (i : Nat) (hi : i < V.length) :
    V.getD i 0 - V.getD 0 0 ≤ blockSub V := by
  rw [blockSub_eq V hne hs hb]
  have := sorted_getD_mono V hs i (V.length - 1) (by omega) (by omega)
  omega

theorem bits_hi_lt (V : List Nat) (hne : V ≠ []) (h32 : V.length < 2 ^ 32)
    (hno : noHighOverflow V = true) :
    V.length + blockSub V / 2 ^ blockL V + 1 < U64 := by
  have hlen : 0 < V.length := List.length_pos.mpr hne
  have hU : U64 = 2 ^ 64 := rfl
  have h64 : (2 : Nat) ^ 64 = 18446744073709551616 := by norm_num
  have h32e : (2 : Nat) ^ 32 = 4294967296 := by norm_num
  by_cases hl : blockL V = 0
  · have hr : blockRange V < 2 * V.length :=
      choose_l_eq_zero_range_lt _ _ (by omega) hl (blockRange_lt V)
    rw [blockRange_eq V hno] at hr
    rw [hl, pow_zero, Nat.div_one]
    omega
  · have h2l : (2 : Nat) ≤ 2 ^ blockL V := by
      calc (2 : Nat) = 2 ^ 1 := rfl
      _ ≤ 2 ^ blockL V := Nat.pow_le_pow_right (by omega) (by omega)
    have hd1 : blockSub V / 2 ^ blockL V ≤ blockSub V / 2 :=
      Nat.div_le_div_left h2l (by omega)
    have hd2 : blockSub V / 2 ≤ (U64 - 1) / 2 :=
      Nat.div_le_div_right (by have := blockSub_lt V; omega)
    have hd3 : (U64 - 1) / 2 = 9223372036854775807 := by
      rw [hU, h64]
    omega

theorem highPos_eq_hiPos (V : List Nat) (hne : V ≠ []) (hs : List.Sorted (· ≤ ·) V)
    (hb : ∀ v ∈ V, v < U64) (h32 : V.length < 2 ^ 32) (hno : noHighOverflow V = true)
    (i : Nat) (hi : i < V.length) :
    highPos V (V.getD 0 0) (blockL V) i
      = (V.getD i 0 - V.getD 0 0) / 2 ^ blockL V + i ∧
    hiPos V (blockL V) i = (V.getD i 0 - V.getD 0 0) / 2 ^ blockL V + i := by
  have hsub := sub64_getD_eq V hs hb i hi
  have hle := getD_sub_le_blockSub V hne hs hb i hi
  have hlt : (V.getD i 0 - V.getD 0 0) / 2 ^ blockL V + i
      < V.length + blockSub V / 2 ^ blockL V + 1 := by
    have := Nat.div_le_div_right (c := 2 ^ blockL V) hle
    omega
  have hbits := bits_hi_lt V hne h32 hno
  constructor
  · simp only [highPos]
    rw [hsub]
    by_cases hl : blockL V = 0
    · rw [if_pos hl]
      rw [hl, pow_zero, Nat.div_one] at hlt hbits ⊢
      exact Nat.mod_eq_of_lt (by omega)
    · rw [if_neg hl, Nat.shiftRight_eq_div_pow]
      exact Nat.mod_eq_of_lt (by omega)
  · unfold hiPos
    rw [hsub, Nat.shiftRight_eq_div_pow]

theorem hiPos_lt_bits (V : List Nat) (hne : V ≠ []) (hs : List.Sorted (· ≤ ·) V)
    (hb : ∀ v ∈ V, v < U64) (h32 : V.length < 2 ^ 32) (hno : noHighOverflow V = true)
    (i : Nat) (hi : i < V.length) :
    hiPos V (blockL V) i < V.length + blockSub V / 2 ^ blockL V + 1 := by
  rw [(highPos_eq_hiPos V hne hs hb h32 hno i hi).2]
  have hle := getD_sub_le_blockSub V hne hs hb i hi
  have := Nat.div_le_div_right (c := 2 ^ blockL V) hle
  omega

theorem hiPos_strict_mono (V : List Nat) (hne : V ≠ []) (hs : List.Sorted (· ≤ ·) V)
    (hb : ∀ v ∈ V, v < U64) (h32 : V.length < 2 ^ 32) (hno : noHighOverflow V = true)
    (i j : Nat) (hij : i < j) (hj : j < V.length) :
    hiPos V (blockL V) i < hiPos V (blockL V) j := by
  rw [(highPos_eq_hiPos V hne hs hb h32 hno i (by omega)).2,
    (highPos_eq_hiPos V hne hs hb h32 hno j hj).2]
  have hm := sorted_getD_mono V hs i j (by omega) hj
  have : (V.getD i 0 - V.getD 0 0) / 2 ^ blockL V
      ≤ (V.getD j 0 - V.getD 0 0) / 2 ^ blockL V :=
    Nat.div_le_div_right (by omega)
  omega

theorem range_hi_eq (V : List Nat) (hno : noHighOverflow V = true) :
    (if blockL V = 0 then blockRange V
      else ((blockRange V + ((1 <<< blockL V) - 1)) % U64) >>> blockL V)
    = blockSub V / 2 ^ blockL V + 1 := by
  have hr := blockRange_eq V hno
  have hov := noHighOverflow_lt V hno
  by_cases hl : blockL V = 0
  · rw [if_pos hl, hr, hl, pow_zero, Nat.div_one]
  · rw [if_neg hl, Nat.one_shiftLeft, hr]
    have h21 : (1 : Nat) ≤ 2 ^ blockL V := Nat.one_le_two_pow
    have he : blockSub V + 1 + (2 ^ blockL V - 1) = blockSub V + 2 ^ blockL V := by omega
    rw [he, Nat.mod_eq_of_lt hov, Nat.shiftRight_eq_div_pow]
    exact Nat.add_div_right _ (by positivity)

theorem build_n_elem (V : List Nat) : (buildEFBlock V).meta.n_elem = V.length := rfl

theorem build_floor (V : List Nat) : (buildEFBlock V).meta.floor = V.getD 0 0 := rfl

theorem build_low (V : List Nat) :
    (buildEFBlock V).low = encodeLow V (V.getD 0 0) (blockL V) := rfl

theorem build_low_words (V : List Nat) :
    (buildEFBlock V).meta.low_words = (buildEFBlock V).low.length := rfl

theorem build_high_words (V : List Nat) :
    (buildEFBlock V).meta.high_words = (buildEFBlock V).high.length := rfl

theorem build_l (V : List Nat) : (buildEFBlock V).meta.l = blockL V := by
  show blockL V % 256 = blockL V
  exact Nat.mod_eq_of_lt (by have := blockL_le V; omega)

theorem build_high_bits_len (V : List Nat) (hne : V ≠ []) (h32 : V.length < 2 ^ 32)
    (hno : noHighOverflow V = true) :
    (buildEFBlock V).meta.high_bits_len
      = V.length + blockSub V / 2 ^ blockL V + 1 := by
  show (V.length + (if blockL V = 0 then blockRange V
      else ((blockRange V + ((1 <<< blockL V) - 1)) % U64) >>> blockL V)) % U64
    = V.length + blockSub V / 2 ^ blockL V + 1
  rw [range_hi_eq V hno]
  exact Nat.mod_eq_of_lt (by have := bits_hi_lt V hne h32 hno; omega)

theorem build_high (V : List Nat) (hne : V ≠ []) (h32 : V.length < 2 ^ 32)
    (hno : noHighOverflow V = true) :
    (buildEFBlock V).high
      = encodeHigh V (V.getD 0 0) (blockL V)
          (ceil_div_u64 (V.length + blockSub V / 2 ^ blockL V + 1) 64) := by
  show encodeHigh V (V.getD 0 0) (blockL V)
      (ceil_div_u64 ((V.length + (if blockL V = 0 then blockRange V
        else ((blockRange V + ((1 <<< blockL V) - 1)) % U64) >>> blockL V)) % U64) 64)
    = _
  rw [range_hi_eq V hno,
    Nat.mod_eq_of_lt (by have := bits_hi_lt V hne h32 hno; omega)]
  have he : V.length + (blockSub V / 2 ^ blockL V + 1)
      = V.length + blockSub V / 2 ^ blockL V + 1 := by omega
  rw [he]

theorem bits_le_64_hw (B : Nat) : B ≤ 64 * ceil_div_u64 B 64 := by
  unfold ceil_div_u64
  omega

/-- Characterization of the high buffer of a built block: bit `p` is
set exactly when `p` is the high-bit position of some element. -/
theorem build_high_char (V : List Nat) (hne : V ≠ []) (hs : List.Sorted (· ≤ ·) V)
    (hb : ∀ v ∈ V, v < U64) (h32 : V.length < 2 ^ 32) (hno : noHighOverflow V = true)
    (p : Nat) :
    bitIn (buildEFBlock V).high p = true ↔ ∃ i < V.length, p = hiPos V (blockL V) i := by
  rw [build_high V hne h32 hno]
  rw [encodeHigh_bit V (V.getD 0 0) (blockL V) _ (by
    intro i hi
    have h1 := (highPos_eq_hiPos V hne hs hb h32 hno i hi).1
    have h2 := (highPos_eq_hiPos V hne hs hb h32 hno i hi).2
    have h3 := hiPos_lt_bits V hne hs hb h32 hno i hi
    have h4 := bits_le_64_hw (V.length + blockSub V / 2 ^ blockL V + 1)
    omega) p]
  rw [List.any_eq_true]
  constructor
  · rintro ⟨i, hi, hp⟩
    rw [List.mem_range] at hi
    refine ⟨i, hi, ?_⟩
    have := of_decide_eq_true hp
    rw [this, (highPos_eq_hiPos V hne hs hb h32 hno i hi).1,
      (highPos_eq_hiPos V hne hs hb h32 hno i hi).2]
  · rintro ⟨i, hi, hp⟩
    refine ⟨i, List.mem_range.mpr hi, ?_⟩
    apply decide_eq_true
    rw [hp, (highPos_eq_hiPos V hne hs hb h32 hno i hi).1,
      (highPos_eq_hiPos V hne hs hb h32 hno i hi).2]

/-- Claim C4 amended: for a block built from `n ≥ 1` non-decreasing
`u64` values whose high-bit sizing does not overflow
(`noHighOverflow`, e.g. any block with `last - first < 2 ^ 63`), the
high buffer has a set bit at `((values[i] - floor) >> l) + i` for each
`i`, these are the only set bits, the popcount over
`[0, high_bits_len)` is `n_elem`, and
`high_bits_len = n_elem + ceil(range / 2 ^ l)` with
`range = last - first + 1` (`ceil_div_u64 range 1 = range` covers the
`l = 0` case). -/
theorem claim4_high_invariant (values : List Nat) (hne : values ≠ [])
    (hs : List.Sorted (· ≤ ·) values) (hb : ∀ v ∈ values, v < U64)
    (h32 : values.length < 2 ^ 32) (hno : noHighOverflow values = true) :
    (∀ i < values.length,
      bitIn (buildEFBlock values).high (hiPos values (blockL values) i) = true) ∧
    (∀ p, bitIn (buildEFBlock values).high p = true →
      ∃ i < values.length, p = hiPos values (blockL values) i) ∧
    popcountRange (buildEFBlock values).high (buildEFBlock values).meta.high_bits_len
      = (buildEFBlock values).meta.n_elem ∧
    (buildEFBlock values).meta.high_bits_len
      = values.length + ceil_div_u64 (blockSub values + 1) (2 ^ blockL values) := by
  have hchar := build_high_char values hne hs hb h32 hno
  have hlen := build_high_bits_len values hne h32 hno
  refine ⟨?_, ?_, ?_, ?_⟩
  · intro i hi
    exact (hchar _).mpr ⟨i, hi, rfl⟩
  · intro p hp
    exact (hchar p).mp hp
  · rw [build_n_elem, hlen]
    unfold popcountRange
    have hset : (Finset.range (values.length + blockSub values / 2 ^ blockL values + 1)).filter
          (fun p => bitIn (buildEFBlock values).high p = true)
        = (Finset.range values.length).image (fun i => hiPos values (blockL values) i) := by
      ext p
      rw [Finset.mem_filter, Finset.mem_range, Finset.mem_image]
      constructor
      · rintro ⟨hplt, hpbit⟩
        obtain ⟨i, hi, hp⟩ := (hchar p).mp hpbit
        exact ⟨i, Finset.mem_range.mpr hi, hp.symm⟩
      · rintro ⟨i, hi, hp⟩
        rw [Finset.mem_range] at hi
        refine ⟨?_, (hchar p).mpr ⟨i, hi, hp.symm⟩⟩
        rw [← hp]
        exact hiPos_lt_bits values hne hs hb h32 hno i hi
    rw [hset, Finset.card_image_of_injOn, Finset.card_range]
    intro i hi j hj hij
    rw [Finset.coe_range, Set.mem_Iio] at hi hj
    simp only [] at hij
    by_contra hne2
    rcases Nat.lt_or_ge i j with h | h
    · have := hiPos_strict_mono values hne hs hb h32 hno i j h hj
      omega
    · have hji : j < i := by omega
      have := hiPos_strict_mono values hne hs hb h32 hno j i hji hi
      omega
  · rw [hlen]
    have h21 : (1 : Nat) ≤ 2 ^ blockL values := Nat.one_le_two_pow
    unfold ceil_div_u64
    have he : blockSub values + 1 + 2 ^ blockL values - 1
        = blockSub values + 2 ^ blockL values := by omega
    rw [he]
    rw [Nat.add_div_right _ (by positivity)]
    omega

/-- Witness for (amended) claim C4 at `values = [1, 3, 4, 6]`. -/
theorem claim4_high_invariant_witness :
    (∀ i < ([1, 3, 4, 6] : List Nat).length,
      bitIn (buildEFBlock [1, 3, 4, 6]).high (hiPos [1, 3, 4, 6] (blockL [1, 3, 4, 6]) i)
        = true) ∧
    (∀ p, bitIn (buildEFBlock [1, 3, 4, 6]).high p = true →
      ∃ i < ([1, 3, 4, 6] : List Nat).length, p = hiPos [1, 3, 4, 6] (blockL [1, 3, 4, 6]) i) ∧
    popcountRange (buildEFBlock [1, 3, 4, 6]).high
        (buildEFBlock [1, 3, 4, 6]).meta.high_bits_len
      = (buildEFBlock [1, 3, 4, 6]).meta.n_elem ∧
    (buildEFBlock [1, 3, 4, 6]).meta.high_bits_len
      = ([1, 3, 4, 6] : List Nat).length
        + ceil_div_u64 (blockSub [1, 3, 4, 6] + 1) (2 ^ blockL [1, 3, 4, 6]) :=
  claim4_high_invariant [1, 3, 4, 6] (by decide) (by decide) (by decide) (by decide) (by decide)

/-- Counterexample to claim C4 as stated: for
`values = [0, 2 ^ 64 - 2]` the computation `(range + (1 << l) - 1) >> l`
overflows (`range = 2 ^ 64 - 1`, `l = 62`), the stored `high_bits_len`
is 2 instead of `2 + ceil(range / 2 ^ l) = 6`, and the popcount over
`[0, high_bits_len)` is 1, not `n_elem = 2`. -/
theorem claim4_high_invariant_counterexample :
    (buildEFBlock [0, 2 ^ 64 - 2]).meta.n_elem = 2 ∧
    popcountRange (buildEFBlock [0, 2 ^ 64 - 2]).high
        (buildEFBlock [0, 2 ^ 64 - 2]).meta.high_bits_len = 1 ∧
    (buildEFBlock [0, 2 ^ 64 - 2]).meta.high_bits_len = 2 ∧
    ([0, 2 ^ 64 - 2] : List Nat).length
        + ceil_div_u64 (blockSub [0, 2 ^ 64 - 2] + 1) (2 ^ blockL [0, 2 ^ 64 - 2]) = 6 := by
  refine ⟨rfl, ?_, rfl, by decide⟩
  decide

/-- Counterexample to claim C8 as stated: the first four bytes of the
serialized header are 0x50 0x50 0x45 0x46 ("PPEF"), not
0x50 0x45 0x46 0x31 ("PEF1"), already for the header of an empty
sequence. -/
theorem claim8_magic_counterexample :
    (PEFMetadata.serialize (mkPEFMetadata 0 256 0 40)).take 4 ≠ [0x50, 0x45, 0x46, 0x31] := by
  decide

/-- Claim C8 amended: every serialized header is 40 bytes and begins
with the 4-byte magic "PPEF" (not "PEF1") followed by the
little-endian `u32` version field equal to 1. -/
theorem claim8_header_magic (n_elem block_size n_blocks payload_offset : Nat) :
    (PEFMetadata.serialize (mkPEFMetadata n_elem block_size n_blocks payload_offset)).length = 40 ∧
      (PEFMetadata.serialize (mkPEFMetadata n_elem block_size n_blocks payload_offset)).take 4
        = [0x50, 0x50, 0x45, 0x46] ∧
      ((PEFMetadata.serialize (mkPEFMetadata n_elem block_size n_blocks payload_offset)).drop 4).take 4
        = [1, 0, 0, 0] := by
  unfold PEFMetadata.serialize mkPEFMetadata leBytes
  refine ⟨?_, ?_, ?_⟩
  · simp
  · simp [List.take_append]
  · simp [List.drop_append, List.take_append, List.range_succ]

/-! Machinery for claim C1: value of the low buffer, digit extraction,
the decode loop invariant, and the chunked sequence round trip. -/

theorem encodeLow_val (V : List Nat) (floor l : Nat) (hl : 0 < l) (hl64 : l ≤ 64) :
    (∀ x ∈ encodeLow V floor l, x < U64) ∧
    wordsVal (encodeLow V floor l)
      = sval ((List.range V.length).map (fun i => (sub64 (V.getD i 0) floor % 2 ^ l, l))) := by
  have hwid : ∀ p ∈ (List.range V.length).map
      (fun i => (sub64 (V.getD i 0) floor &&& ((1 <<< l) - 1), l)), p.2 ≤ 64 := by
    intro p hp
    rw [List.mem_map] at hp
    obtain ⟨i, _, hi⟩ := hp
    rw [← hi]
    exact hl64
  obtain ⟨hWf, _, hval⟩ := write_fold_spec
    ((List.range V.length).map (fun i => (sub64 (V.getD i 0) floor &&& ((1 <<< l) - 1), l)))
    BitWriter.empty empty_Wf hwid
  have hfe :
      ((List.range V.length).map
        (fun i => (sub64 (V.getD i 0) floor &&& ((1 <<< l) - 1), l))).foldl
          (fun bw p => bw.put p.1 p.2) BitWriter.empty
      = (List.range V.length).foldl
          (fun bw i => bw.put (sub64 (V.getD i 0) floor &&& ((1 <<< l) - 1)) l)
          BitWriter.empty :=
    List.foldl_map _ _ _ _
  have henc : encodeLow V floor l
      = (((List.range V.length).map
          (fun i => (sub64 (V.getD i 0) floor &&& ((1 <<< l) - 1), l))).foldl
            (fun bw p => bw.put p.1 p.2) BitWriter.empty).flush.words := by
    rw [hfe]
    unfold encodeLow
    rw [if_pos hl]
  obtain ⟨hflt, hfval⟩ := flush_spec _ hWf
  refine ⟨by rw [henc]; exact hflt, ?_⟩
  rw [henc, hfval, hval]
  have h0 : BitWriter.empty.val = 0 := rfl
  have h1 : BitWriter.empty.bitLen = 0 := rfl
  rw [h0, h1, pow_zero, Nat.zero_add, Nat.mul_one, List.map_map]
  congr 1
  apply List.map_congr_left
  intro i _
  show ((sub64 (V.getD i 0) floor &&& ((1 <<< l) - 1)) % 2 ^ l, l)
      = (sub64 (V.getD i 0) floor % 2 ^ l, l)
  rw [Nat.one_shiftLeft, Nat.and_pow_two_sub_one_eq_mod, Nat.mod_mod_of_dvd _ dvd_rfl]

theorem build_low_lt (V : List Nat) : ∀ x ∈ (buildEFBlock V).low, x < U64 := by
  rw [build_low]
  by_cases hl : 0 < blockL V
  · exact (encodeLow_val V (V.getD 0 0) (blockL V) hl (by have := blockL_le V; omega)).1
  · have he : encodeLow V (V.getD 0 0) (blockL V) = [] := by
      unfold encodeLow
      rw [if_neg hl]
    rw [he]
    intro x hx
    exact absurd hx (List.not_mem_nil x)

theorem sval_extract (l : Nat) : ∀ (ds : List Nat), (∀ d ∈ ds, d < 2 ^ l) →
    ∀ k, k < ds.length →
    sval (ds.map (fun d => (d, l))) / 2 ^ (k * l) % 2 ^ l = ds.getD k 0 := by
  intro ds
  induction ds with
  | nil =>
    intro _ k hk
    exact absurd hk (by simp)
  | cons d rest ih =>
    intro hall k hk
    show (d + sval (rest.map (fun d => (d, l))) * 2 ^ l) / 2 ^ (k * l) % 2 ^ l
        = (d :: rest).getD k 0
    cases k with
    | zero =>
      rw [Nat.zero_mul, pow_zero, Nat.div_one, Nat.add_mul_mod_self_right,
        List.getD_cons_zero]
      exact Nat.mod_eq_of_lt (hall d (List.mem_cons_self d rest))
    | succ k =>
      have he : (k + 1) * l = l + k * l := by ring
      rw [he, pow_add, ← Nat.div_div_eq_div_mul,
        Nat.add_mul_div_right _ _ (by positivity : (0:Nat) < 2 ^ l),
        Nat.div_eq_of_lt (hall d (List.mem_cons_self d rest)), Nat.zero_add,
        List.getD_cons_succ]
      exact ih (fun x hx => hall x (List.mem_cons_of_mem d hx)) k
        (by rw [List.length_cons] at hk; omega)

theorem take_succ_getD (V : List Nat) (k : Nat) (hk : k < V.length) :
    V.take (k + 1) = V.take k ++ [V.getD k 0] := by
  rw [List.take_succ, List.getElem?_eq_getElem hk, List.getD_eq_getElem V 0 hk]
  rfl

theorem getD_mem_self (l : List Nat) (i : Nat) (hi : i < l.length) : l.getD i 0 ∈ l := by
  rw [List.getD_eq_getElem l 0 hi]
  exact List.getElem_mem hi

theorem mem_le_getD_last (V : List Nat) (hs : List.Sorted (· ≤ ·) V) (x : Nat)
    (hx : x ∈ V) : V.getD 0 0 ≤ x ∧ x ≤ V.getD (V.length - 1) 0 := by
  obtain ⟨i, hi, hix⟩ := List.getElem_of_mem hx
  have h1 := sorted_getD_mono V hs 0 i (Nat.zero_le i) hi
  have h2 := sorted_getD_mono V hs i (V.length - 1) (by omega) (by omega)
  rw [List.getD_eq_getElem V 0 hi, hix] at h1 h2
  exact ⟨h1, h2⟩

theorem hiPos_mono_le (V : List Nat) (hne : V ≠ []) (hs : List.Sorted (· ≤ ·) V)
    (hb : ∀ v ∈ V, v < U64) (h32 : V.length < 2 ^ 32) (hno : noHighOverflow V = true)
    (i j : Nat) (hij : i ≤ j) (hj : j < V.length) :
    hiPos V (blockL V) i ≤ hiPos V (blockL V) j := by
  rcases Nat.lt_or_ge i j with h | h
  · exact Nat.le_of_lt (hiPos_strict_mono V hne hs hb h32 hno i j h hj)
  · have he : i = j := by omega
    rw [he]

theorem decState_zero (V : List Nat) :
    decState V 0 = (UINT64_MAX,
      BitReader.ofWords (buildEFBlock V).low (buildEFBlock V).low.length, []) := rfl

theorem decState_succ (V : List Nat) (k : Nat) :
    decState V (k + 1) = decodeStep (buildEFBlock V) (decState V k) k := by
  unfold decState
  rw [List.range_succ, List.foldl_append, List.foldl_cons, List.foldl_nil]

theorem decode_eq_decState (V : List Nat) :
    (buildEFBlock V).decode = (decState V V.length).2.2 := rfl

theorem two_pow_blockL_le (V : List Nat) : 2 ^ blockL V ≤ blockSub V + 1 := by
  unfold blockL EFBlock.choose_l
  by_cases hn : V.length = 0
  · rw [if_pos hn, pow_zero]
    omega
  · rw [if_neg hn]
    show 2 ^ (if blockRange V / V.length = 0 then 0
        else floor_log2_u64 (blockRange V / V.length)) ≤ blockSub V + 1
    by_cases hq : blockRange V / V.length = 0
    · rw [if_pos hq, pow_zero]
      omega
    · rw [if_neg hq]
      have hqlt : blockRange V / V.length < U64 :=
        lt_of_le_of_lt (Nat.div_le_self _ _) (blockRange_lt V)
      rw [floor_log2_eq_log2 _ (Nat.pos_of_ne_zero hq) hqlt]
      have h1 : 2 ^ Nat.log2 (blockRange V / V.length) ≤ blockRange V / V.length :=
        Nat.log2_self_le hq
      have h2 : blockRange V / V.length ≤ blockRange V := Nat.div_le_self _ _
      have h3 : blockRange V ≤ blockSub V + 1 := by
        unfold blockRange
        exact Nat.mod_le _ _
      omega

theorem noHighOverflow_of_sub (V : List Nat) (hsub : blockSub V < 2 ^ 63) :
    noHighOverflow V = true := by
  unfold noHighOverflow
  apply decide_eq_true
  have h1 := two_pow_blockL_le V
  have h63 : (2 : Nat) ^ 63 = 9223372036854775808 := by norm_num
  have hU : U64 = 18446744073709551616 := by unfold U64; norm_num
  omega

theorem blockSub_chunk_le (V c : List Nat) (hs : List.Sorted (· ≤ ·) V)
    (hb : ∀ v ∈ V, v < U64) (hsub : c.Sublist V) (hcne : c ≠ []) :
    blockSub c ≤ blockSub V := by
  have hcs : List.Sorted (· ≤ ·) c := List.Pairwise.sublist hsub hs
  have hcb : ∀ v ∈ c, v < U64 := fun v hv => hb v (hsub.subset hv)
  have hVne : V ≠ [] := by
    intro h
    rw [h, List.sublist_nil] at hsub
    exact hcne hsub
  have hclen : 0 < c.length := List.length_pos.mpr hcne
  rw [blockSub_eq c hcne hcs hcb, blockSub_eq V hVne hs hb]
  have h1 := mem_le_getD_last V hs (c.getD 0 0)
    (hsub.subset (getD_mem_self c 0 (by omega)))
  have h2 := mem_le_getD_last V hs (c.getD (c.length - 1) 0)
    (hsub.subset (getD_mem_self c (c.length - 1) (by omega)))
  omega

theorem chunksAux_flatten (B : Nat) (hB : 1 ≤ B) : ∀ (fuel : Nat) (l : List Nat),
    l.length ≤ fuel → (chunksAux B fuel l).flatten = l := by
  intro fuel
  induction fuel with
  | zero =>
    intro l h
    have hl : l = [] := List.eq_nil_of_length_eq_zero (by omega)
    rw [hl]
    rfl
  | succ fuel ih =>
    intro l h
    cases l with
    | nil => rfl
    | cons a as =>
      show ((a :: as).take B :: chunksAux B fuel ((a :: as).drop B)).flatten = a :: as
      have hlen : ((a :: as).drop B).length ≤ fuel := by
        rw [List.length_drop, List.length_cons]
        rw [List.length_cons] at h
        omega
      rw [List.flatten_cons, ih _ hlen]
      exact List.take_append_drop B (a :: as)

theorem chunks_flatten (V : List Nat) (B : Nat) (hB : 1 ≤ B) :
    (seqChunks V B).flatten = V :=
  chunksAux_flatten B hB V.length V (le_refl _)

theorem chunksAux_mem (B : Nat) (hB : 1 ≤ B) : ∀ (fuel : Nat) (l c : List Nat),
    c ∈ chunksAux B fuel l → c ≠ [] ∧ c.Sublist l := by
  intro fuel
  induction fuel with
  | zero =>
    intro l c hc
    simp only [chunksAux] at hc
    exact absurd hc (List.not_mem_nil c)
  | succ fuel ih =>
    intro l c hc
    cases l with
    | nil =>
      simp only [chunksAux] at hc
      exact absurd hc (List.not_mem_nil c)
    | cons a as =>
      have hc2 : c = (a :: as).take B ∨ c ∈ chunksAux B fuel ((a :: as).drop B) :=
        List.mem_cons.mp hc
      rcases hc2 with he | hmem
      · rw [he]
        obtain ⟨b, rfl⟩ : ∃ b, B = b + 1 := ⟨B - 1, by omega⟩
        rw [List.take_succ_cons]
        exact ⟨List.cons_ne_nil a _, List.take_sublist (b + 1) (a :: as)⟩
      · obtain ⟨h1, h2⟩ := ih _ c hmem
        exact ⟨h1, h2.trans (List.drop_sublist B (a :: as))⟩

theorem decode_find (V : List Nat) (hne : V ≠ []) (hs : List.Sorted (· ≤ ·) V)
    (hb : ∀ v ∈ V, v < U64) (h32 : V.length < 2 ^ 32) (hno : noHighOverflow V = true)
    (k start : Nat) (hk : k < V.length)
    (hle : start ≤ hiPos V (blockL V) k)
    (hge : ∀ j, j < V.length → start ≤ hiPos V (blockL V) j → k ≤ j) :
    next_one_at_or_after (buildEFBlock V).high (buildEFBlock V).high.length start
      = hiPos V (blockL V) k := by
  have hwlt : ∀ x ∈ (buildEFBlock V).high, x < U64 := by
    rw [build_high V hne h32 hno]
    exact encodeHigh_lt V (V.getD 0 0) (blockL V) _
  have hlen : (buildEFBlock V).high.length
      = ceil_div_u64 (V.length + blockSub V / 2 ^ blockL V + 1) 64 := by
    rw [build_high V hne h32 hno, encodeHigh_length]
  have hbits : hiPos V (blockL V) k < 64 * (buildEFBlock V).high.length := by
    have h1 := hiPos_lt_bits V hne hs hb h32 hno k hk
    have h2 := bits_le_64_hw (V.length + blockSub V / 2 ^ blockL V + 1)
    omega
  have hset : bitIn (buildEFBlock V).high (hiPos V (blockL V) k) = true :=
    (build_high_char V hne hs hb h32 hno _).mpr ⟨k, hk, rfl⟩
  rcases next_one_spec (buildEFBlock V).high start hwlt with ⟨_, hnone⟩ | ⟨h1, _, h3, h4⟩
  · have hfalse := hnone _ hle hbits
    rw [hset] at hfalse
    exact Bool.noConfusion hfalse
  · obtain ⟨j, hj, hjr⟩ := (build_high_char V hne hs hb h32 hno _).mp h3
    have hjk : k ≤ j := hge j hj (by rw [← hjr]; exact h1)
    have hky : hiPos V (blockL V) k ≤ hiPos V (blockL V) j :=
      hiPos_mono_le V hne hs hb h32 hno k j hjk hj
    have hmin : ¬ hiPos V (blockL V) k
        < next_one_at_or_after (buildEFBlock V).high (buildEFBlock V).high.length start := by
      intro hc
      have hfalse := h4 _ hle hc
      rw [hset] at hfalse
      exact Bool.noConfusion hfalse
    omega

theorem decode_value_eq (V : List Nat) (hs : List.Sorted (· ≤ ·) V)
    (hb : ∀ v ∈ V, v < U64) (k : Nat) (hk : k < V.length) (lo : Nat)
    (hlo : lo = (V.getD k 0 - V.getD 0 0) % 2 ^ blockL V) :
    (V.getD 0 0
        + ((((V.getD k 0 - V.getD 0 0) / 2 ^ blockL V) <<< blockL V) % U64 ||| lo)) % U64
      = V.getD k 0 := by
  subst hlo
  have hvk : V.getD k 0 < U64 := getD_lt_of_forall_lt V k hk hb
  have hfk : V.getD 0 0 ≤ V.getD k 0 := sorted_getD_mono V hs 0 k (Nat.zero_le k) hk
  have hle2 : (V.getD k 0 - V.getD 0 0) / 2 ^ blockL V * 2 ^ blockL V
      ≤ V.getD k 0 - V.getD 0 0 := Nat.div_mul_le_self _ _
  have hmlt : (V.getD k 0 - V.getD 0 0) / 2 ^ blockL V * 2 ^ blockL V < U64 := by omega
  have hmod : (V.getD k 0 - V.getD 0 0) % 2 ^ blockL V < 2 ^ blockL V :=
    Nat.mod_lt _ (by positivity)
  rw [Nat.shiftLeft_eq, Nat.mod_eq_of_lt hmlt, Nat.lor_comm, ← Nat.shiftLeft_eq,
    lor_shl_add (blockL V) _ _ hmod, Nat.mod_add_div']
  have he : V.getD 0 0 + (V.getD k 0 - V.getD 0 0) = V.getD k 0 := by omega
  rw [he]
  exact Nat.mod_eq_of_lt hvk

theorem decode_invariant (V : List Nat) (hne : V ≠ []) (hs : List.Sorted (· ≤ ·) V)
    (hb : ∀ v ∈ V, v < U64) (h32 : V.length < 2 ^ 32) (hno : noHighOverflow V = true) :
    ∀ k, k ≤ V.length →
      (decState V k).1 = (if k = 0 then UINT64_MAX else hiPos V (blockL V) (k - 1)) ∧
      (decState V k).2.1.words = (buildEFBlock V).low ∧
      (decState V k).2.1.n_words = (buildEFBlock V).low.length ∧
      (decState V k).2.1.Wf ∧
      (decState V k).2.1.pos = k * blockL V ∧
      (decState V k).2.2 = V.take k := by
  intro k
  induction k with
  | zero =>
    intro _
    rw [decState_zero]
    refine ⟨by rw [if_pos rfl], rfl, rfl, ofWords_Wf _ (build_low_lt V), ?_, rfl⟩
    show 64 * 0 + 0 = 0 * blockL V
    omega
  | succ k ih =>
    intro hk1
    have hk : k < V.length := by omega
    obtain ⟨ih1, ihw, ihn, ihWf, ihpos, ihout⟩ := ih (by omega)
    have hUM : UINT64_MAX + 1 = U64 := by decide
    have hbb := bits_hi_lt V hne h32 hno
    have hstart_eq : (if (decState V k).1 = UINT64_MAX then 0 else (decState V k).1 + 1)
        = (if k = 0 then 0 else hiPos V (blockL V) (k - 1) + 1) := by
      by_cases hk0 : k = 0
      · rw [ih1, if_pos hk0, if_pos rfl, if_pos hk0]
      · rw [ih1, if_neg hk0]
        have hlt := hiPos_lt_bits V hne hs hb h32 hno (k - 1) (by omega)
        rw [if_neg (show ¬ hiPos V (blockL V) (k - 1) = UINT64_MAX by omega), if_neg hk0]
    have hstart_le : (if k = 0 then 0 else hiPos V (blockL V) (k - 1) + 1)
        ≤ hiPos V (blockL V) k := by
      by_cases hk0 : k = 0
      · rw [if_pos hk0]
        exact Nat.zero_le _
      · rw [if_neg hk0]
        have := hiPos_strict_mono V hne hs hb h32 hno (k - 1) k (by omega) hk
        omega
    have hge : ∀ j, j < V.length →
        (if k = 0 then 0 else hiPos V (blockL V) (k - 1) + 1) ≤ hiPos V (blockL V) j →
        k ≤ j := by
      intro j hj hstart
      by_cases hk0 : k = 0
      · omega
      · rw [if_neg hk0] at hstart
        by_contra hc
        have hmle := hiPos_mono_le V hne hs hb h32 hno j (k - 1) (by omega) (by omega)
        omega
    have hposk := decode_find V hne hs hb h32 hno k _ hk hstart_le hge
    have hp2 := (highPos_eq_hiPos V hne hs hb h32 hno k hk).2
    have hlt := hiPos_lt_bits V hne hs hb h32 hno k hk
    have hhi : sub64 (hiPos V (blockL V) k) k
        = (V.getD k 0 - V.getD 0 0) / 2 ^ blockL V := by
      obtain ⟨d, hd⟩ : ∃ d, (V.getD k 0 - V.getD 0 0) / 2 ^ blockL V = d := ⟨_, rfl⟩
      rw [hd] at hp2
      rw [hp2] at hlt
      rw [hd, hp2]
      rw [sub64_eq_sub (d + k) k (Nat.le_add_left k d) (by omega)]
      omega
    rw [decState_succ]
    simp only [decodeStep]
    rw [build_l, build_floor, build_high_words, hstart_eq, hposk, hhi]
    by_cases hl0 : blockL V = 0
    · rw [if_neg (not_not_intro hl0)]
      refine ⟨?_, ?_, ?_, ?_, ?_, ?_⟩
      · rw [if_neg (Nat.succ_ne_zero k), Nat.add_sub_cancel]
      · exact ihw
      · exact ihn
      · exact ihWf
      · show (decState V k).2.1.pos = (k + 1) * blockL V
        rw [ihpos, hl0]
        omega
      · rw [ihout]
        have hlo : ((0 : Nat), (decState V k).2.1).1
            = (V.getD k 0 - V.getD 0 0) % 2 ^ blockL V := by
          show (0 : Nat) = (V.getD k 0 - V.getD 0 0) % 2 ^ blockL V
          rw [hl0, pow_zero]
          exact (Nat.mod_one _).symm
        rw [decode_value_eq V hs hb k hk _ hlo]
        exact (take_succ_getD V k hk).symm
    · rw [if_pos hl0]
      obtain ⟨g1, g2, g3, g4, g5⟩ := get_spec (decState V k).2.1 (blockL V) ihWf
      have hstr : (decState V k).2.1.stream = wordsVal (buildEFBlock V).low := by
        unfold BitReader.stream
        rw [ihw, ihn, List.take_length]
      have hl64 : blockL V ≤ 64 := by have := blockL_le V; omega
      have hext : wordsVal (buildEFBlock V).low / 2 ^ (k * blockL V) % 2 ^ blockL V
          = (V.getD k 0 - V.getD 0 0) % 2 ^ blockL V := by
        rw [build_low]
        obtain ⟨_, hval⟩ := encodeLow_val V (V.getD 0 0) (blockL V) (by omega) hl64
        rw [hval]
        have hmm : (List.range V.length).map
            (fun i => (sub64 (V.getD i 0) (V.getD 0 0) % 2 ^ blockL V, blockL V))
            = ((List.range V.length).map
                (fun i => sub64 (V.getD i 0) (V.getD 0 0) % 2 ^ blockL V)).map
              (fun d => (d, blockL V)) := by
          rw [List.map_map]
          apply List.map_congr_left
          intro i _
          rfl
        rw [hmm, sval_extract (blockL V) _
          (by
            intro d hd
            rw [List.mem_map] at hd
            obtain ⟨i, _, hi⟩ := hd
            rw [← hi]
            exact Nat.mod_lt _ (by positivity))
          k (by rw [List.length_map, List.length_range]; exact hk),
          getD_map_range _ _ _ hk, sub64_getD_eq V hs hb k hk]
      have hlo : ((decState V k).2.1.get (blockL V)).1
          = (V.getD k 0 - V.getD 0 0) % 2 ^ blockL V := by
        rw [g5, hstr, ihpos, hext]
      refine ⟨?_, ?_, ?_, ?_, ?_, ?_⟩
      · rw [if_neg (Nat.succ_ne_zero k), Nat.add_sub_cancel]
      · exact g1.trans ihw
      · exact g2.trans ihn
      · exact g3
      · rw [g4, ihpos, Nat.succ_mul]
      · rw [ihout, decode_value_eq V hs hb k hk _ hlo]
        exact (take_succ_getD V k hk).symm

theorem buildEFBlock_decode (V : List Nat) (hne : V ≠ []) (hs : List.Sorted (· ≤ ·) V)
    (hb : ∀ v ∈ V, v < U64) (h32 : V.length < 2 ^ 32) (hno : noHighOverflow V = true) :
    (buildEFBlock V).decode = V := by
  rw [decode_eq_decState,
    (decode_invariant V hne hs hb h32 hno V.length (le_refl _)).2.2.2.2.2,
    List.take_length]

/-- Claim C1 amended: for every nonempty non-decreasing list of `u64`
values with fewer than `2 ^ 32` elements whose span satisfies
`last - first < 2 ^ 63` (so that no `u64` computation in the
constructor overflows), the `EFBlock` round trip returns exactly the
input, and for every block size `B ≥ 1` (in particular
`B ∈ {1, 2, 16, 256, 1024}`) the chunked `Sequence` decode — each run
of at most `B` elements encoded and decoded as one Elias-Fano block —
also returns exactly the input. -/
theorem claim1_roundtrip (values : List Nat) (B : Nat) (hne : values ≠ [])
    (hs : List.Sorted (· ≤ ·) values) (hb : ∀ v ∈ values, v < U64)
    (h32 : values.length < 2 ^ 32) (hB : 1 ≤ B)
    (hsub : blockSub values < 2 ^ 63) :
    (EFBlock.ofValues values).map EFBlock.decode = Except.ok values ∧
    seqDecode values B = values := by
  have hlen0 : ¬ values.length = 0 := fun h => hne (List.eq_nil_of_length_eq_zero h)
  constructor
  · unfold EFBlock.ofValues
    rw [if_neg hlen0]
    show Except.ok (buildEFBlock values).decode = Except.ok values
    rw [buildEFBlock_decode values hne hs hb h32 (noHighOverflow_of_sub values hsub)]
  · unfold seqDecode
    have hmap : (seqChunks values B).map (fun c => (buildEFBlock c).decode)
        = (seqChunks values B).map id := by
      apply List.map_congr_left
      intro c hc
      obtain ⟨hcne, hcsub⟩ := chunksAux_mem B hB values.length values c hc
      have hcs : List.Sorted (· ≤ ·) c := List.Pairwise.sublist hcsub hs
      have hcb : ∀ v ∈ c, v < U64 := fun v hv => hb v (hcsub.subset hv)
      have hc32 : c.length < 2 ^ 32 := lt_of_le_of_lt hcsub.length_le h32
      have hcno : noHighOverflow c = true :=
        noHighOverflow_of_sub c
          (lt_of_le_of_lt (blockSub_chunk_le values c hs hb hcsub hcne) hsub)
      exact buildEFBlock_decode c hcne hcs hcb hc32 hcno
    rw [hmap, List.map_id]
    exact chunks_flatten values B hB

/-- Witness for claim C1: the block and the chunked sequence with
`B = 2` built over `[1, 3, 4, 6, 10]` both decode back to the input. -/
theorem claim1_roundtrip_witness :
    (EFBlock.ofValues [1, 3, 4, 6, 10]).map EFBlock.decode
        = Except.ok [1, 3, 4, 6, 10] ∧
    seqDecode [1, 3, 4, 6, 10] 2 = [1, 3, 4, 6, 10] :=
  claim1_roundtrip [1, 3, 4, 6, 10] 2 (by decide) (by decide) (by decide) (by decide)
    (by decide) (by decide)

/-- Counterexample to claim C1 as stated: for the sorted `u64` values
`[0, 2 ^ 64 - 1]` the `uint64_t` computation `range = last - first + 1`
wraps to `0`, `l` becomes `0`, the second set bit lands at `u64`
position `(2 ^ 64 - 1 + 1) mod 2 ^ 64 = 0`, and decode returns
`[0, 2 ^ 64 - 2]`, not the input. -/
theorem claim1_roundtrip_counterexample :
    List.Sorted (· ≤ ·) [0, 2 ^ 64 - 1] ∧
    (∀ v ∈ ([0, 2 ^ 64 - 1] : List Nat), v < U64) ∧
    (EFBlock.ofValues [0, 2 ^ 64 - 1]).map EFBlock.decode = Except.ok [0, 2 ^ 64 - 2] ∧
    (EFBlock.ofValues [0, 2 ^ 64 - 1]).map EFBlock.decode
      ≠ Except.ok ([0, 2 ^ 64 - 1] : List Nat) := by
  have hdec : (buildEFBlock [0, 2 ^ 64 - 1]).decode = [0, 2 ^ 64 - 2] := by decide
  have hof : (EFBlock.ofValues [0, 2 ^ 64 - 1]).map EFBlock.decode
      = Except.ok (buildEFBlock [0, 2 ^ 64 - 1]).decode := rfl
  refine ⟨by decide, by decide, ?_, ?_⟩
  · rw [hof, hdec]
  · rw [hof, hdec]
    intro hcontra
    have heq : ([0, 2 ^ 64 - 2] : List Nat) = [0, 2 ^ 64 - 1] := Except.ok.inj hcontra
    exact absurd heq (by decide)

end Ppef
